import Mathlib

/-!
# Verification of the puyo15 board-simulation engine

A shallow embedding, in Lean, of the game-logic core of `src/app/page.tsx`
(a falling-block chain-reaction puzzle game on a 12 x 6 grid), together
with theorems checking the natural-language specification against it.

The embedding mirrors the source functions:

* `findMatches`   - the per-cell breadth-first flood fill (lines 56-95);
* `removeMatchedPuyos` - clearing matched cells (lines 97-103);
* `applyGravity`  - the per-column downward compaction loop (lines 238-257);
* `animateChain`  - the recursive resolution/scoring pass (lines 259-301),
  with the presentation delays and sounds dropped;
* `movePuyo`, `rotatePuyo`, `isValidMove`, `getSecondPuyoPosition`,
  `placePuyo`, `holdPuyo` - the piece controller (lines 191-353), with the
  React state variables gathered into one `Game` structure and the random
  `generatePuyoPair` supplied as an explicit fresh-piece argument.

Spec-side definitions (adjacency, connected components) are declared
separately and compared with the code-side functions.
-/

namespace Puyo

/-- The five puyo colors of the source palette. -/
inductive Color where
  | red | green | blue | yellow | purple
deriving DecidableEq, Repr

/-- A cell is empty (`none`, the source's `null`) or colored. -/
abbrev Cell := Option Color

/-- GRID_ROWS = 12. -/
def GRID_ROWS : Nat := 12

/-- GRID_COLS = 6. -/
def GRID_COLS : Nat := 6

/-- An in-bounds board position, `(row, col)` like the source's `[y, x]`. -/
abbrev Pos := Fin GRID_ROWS × Fin GRID_COLS

/-- The board: `grid[y][x]`, row 0 at the top. -/
abbrev Grid := Fin GRID_ROWS → Fin GRID_COLS → Cell

/-- The all-empty board (`createEmptyGrid`). -/
def createEmptyGrid : Grid := fun _ _ => none

/-- Cell lookup at a checked position. -/
def colorAt (g : Grid) (p : Pos) : Cell := g p.1 p.2

/-- Cell lookup at raw integer coordinates; out of bounds reads `none`.
The source never reads out of bounds (bounds are always checked first),
so this total wrapper is only a convenience. -/
def cellAt (g : Grid) (y x : Int) : Cell :=
  if h : 0 ≤ y ∧ y < GRID_ROWS ∧ 0 ≤ x ∧ x < GRID_COLS then
    g ⟨y.toNat, by omega⟩ ⟨x.toNat, by omega⟩
  else none

/-- Functional update of one cell, addressed by raw integers;
an out-of-bounds write is a no-op (the source always checks bounds first). -/
def updateCell (g : Grid) (y x : Int) (v : Cell) : Grid :=
  fun r c => if (r : Int) = y ∧ (c : Int) = x then v else g r c

/-- The four scan directions of `findMatches`, `(dy, dx)` in source order. -/
def directions : List (Int × Int) := [(0, 1), (1, 0), (0, -1), (-1, 0)]

/-- Bounds-check raw coordinates into a `Pos` (the
`ny >= 0 && ny < GRID_ROWS && nx >= 0 && nx < GRID_COLS` test). -/
def mkPos? (ny nx : Int) : Option Pos :=
  if h : 0 ≤ ny ∧ ny < GRID_ROWS ∧ 0 ≤ nx ∧ nx < GRID_COLS then
    some (⟨ny.toNat, by omega⟩, ⟨nx.toNat, by omega⟩)
  else none

/-- The neighbors of `p` that pass the push test of the flood-fill loop:
in bounds, `grid[ny][nx] === color`, and not in `visited`. -/
def pushCands (g : Grid) (c : Color) (visited : Finset Pos) (p : Pos) : List Pos :=
  directions.filterMap fun d =>
    (mkPos? ((p.1 : Int) + d.1) ((p.2 : Int) + d.2)).bind fun q =>
      if colorAt g q = some c ∧ q ∉ visited then some q else none

/-- Membership in the push-candidate list, unfolded. -/
lemma mem_pushCands {g : Grid} {c : Color} {v : Finset Pos} {p q : Pos} :
    q ∈ pushCands g c v p ↔
      (∃ d ∈ directions, mkPos? ((p.1 : Int) + d.1) ((p.2 : Int) + d.2) = some q) ∧
        colorAt g q = some c ∧ q ∉ v := by
  simp only [pushCands, List.mem_filterMap, Option.bind_eq_some]
  constructor
  · rintro ⟨d, hd, q', hq', hif⟩
    split at hif
    · next hcond =>
        injection hif with hif
        subst hif
        exact ⟨⟨d, hd, hq'⟩, hcond⟩
    · exact absurd hif (by simp)
  · rintro ⟨⟨d, hd, hq⟩, hcol, hv⟩
    exact ⟨d, hd, q, hq, by simp [hcol, hv]⟩

/-- The `while (queue.length > 0)` loop of `findMatches`: dequeue, mark
visited, push every in-bounds same-colored unvisited neighbor onto both
the group and the queue.  Note the source adds to `visited` only at
dequeue time, so a cell can be pushed (and collected) more than once. -/
def bfsGo (g : Grid) (c : Color) : List Pos → List Pos → Finset Pos → List Pos
  | group, [], _ => group
  | group, p :: rest, visited =>
      let visited' := insert p visited
      let nbrs := pushCands g c visited' p
      bfsGo g c (group ++ nbrs) (rest ++ nbrs) visited'
termination_by group queue visited =>
  (GRID_ROWS * GRID_COLS - visited.card, (queue.filter (fun q => q ∈ visited)).length)
decreasing_by
  by_cases hp : p ∈ visited
  · have hins : insert p visited = visited := Finset.insert_eq_self.mpr hp
    rw [hins]
    apply Prod.Lex.right
    have hnb : ∀ q ∈ pushCands g c visited p, q ∉ visited :=
      fun q hq => (mem_pushCands.mp hq).2.2
    have h1 : (List.filter (fun q => decide (q ∈ visited))
        (rest ++ pushCands g c visited p)).length
        = (List.filter (fun q => decide (q ∈ visited)) rest).length := by
      rw [List.filter_append]
      have : List.filter (fun q => decide (q ∈ visited))
          (pushCands g c visited p) = [] := by
        rw [List.filter_eq_nil_iff]
        intro q hq
        simp [hnb q hq]
      rw [this, List.append_nil]
    have h2 : (List.filter (fun q => decide (q ∈ visited)) (p :: rest)).length
        = (List.filter (fun q => decide (q ∈ visited)) rest).length + 1 := by
      simp [List.filter_cons, hp]
    simp only [h1, h2]
    omega
  · apply Prod.Lex.left
    have hlt : visited.card < (insert p visited).card := by
      rw [Finset.card_insert_of_not_mem hp]
      omega
    have hle : (insert p visited).card ≤ GRID_ROWS * GRID_COLS := by
      have := Finset.card_le_univ (insert p visited)
      simpa [GRID_ROWS, GRID_COLS] using this
    omega

/-- The body of the double scan loop of `findMatches` for one start cell:
if the cell is non-empty, flood fill from it; keep the group only when
its collected length is at least 4. -/
def cellMatches (g : Grid) (p : Pos) : List Pos :=
  match colorAt g p with
  | some c =>
      let group := bfsGo g c [p] [p] ∅
      if 4 ≤ group.length then group else []
  | none => []

/-- All board positions in the source's scan order: `y` outer, `x` inner. -/
def allPositions : List Pos :=
  (List.finRange GRID_ROWS).flatMap fun y =>
    (List.finRange GRID_COLS).map fun x => (y, x)

/-- `findMatches` (source lines 56-95): scan every cell and concatenate
the collected groups of length >= 4.  There is no visited set shared
between start cells, so every cell of a matched component starts its own
flood fill and re-collects the whole component. -/
def findMatches (g : Grid) : List Pos :=
  allPositions.flatMap (cellMatches g)

/-- `removeMatchedPuyos` (source lines 97-103): set each listed position
to `null`, in order. -/
def removeMatchedPuyos (g : Grid) (ms : List Pos) : Grid :=
  ms.foldl (fun g' p => fun r c => if (r, c) = p then none else g' r c) g

/-- One column of the board, top to bottom (`newGrid[row][col]` for fixed
`col`). -/
def colList (g : Grid) (x : Fin GRID_COLS) : List Cell :=
  List.ofFn fun r => g r x

/-- The inner loop of `applyGravity` on one column: `row` runs downward
from `height - 1` to `0` (here as fuel `r`, visiting index `r - 1` first),
`emptyRow` is the lowest slot not yet filled; every non-empty cell is
moved down to `emptyRow`. -/
def gravityColGo : Nat → List Cell → Nat → List Cell
  | 0, col, _ => col
  | r + 1, col, emptyRow =>
      match col.getD r none with
      | some v =>
          if r ≠ emptyRow then
            gravityColGo r ((col.set emptyRow (some v)).set r none) (emptyRow - 1)
          else
            gravityColGo r col (emptyRow - 1)
      | none => gravityColGo r col emptyRow

/-- Gravity on one column (`for (let row = height - 1; row >= 0; row--)`
with `emptyRow` starting at `height - 1`). -/
def applyGravityCol (col : List Cell) : List Cell :=
  gravityColGo col.length col (col.length - 1)

/-- `applyGravity` (source lines 238-257): compact every column
independently. -/
def applyGravity (g : Grid) : Grid :=
  fun r x => (applyGravityCol (colList g x)).getD r none

/-! ## Gravity: the compaction loop computes the stable per-column
compaction (all colors pushed to the bottom, order preserved). -/

lemma take_set_of_le (l : List Cell) (i : Nat) (a : Cell) (r : Nat) (h : r ≤ i) :
    (l.set i a).take r = l.take r := by
  apply List.ext_getElem
  · simp
  · intro n h1 h2
    rw [List.getElem_take, List.getElem_take, List.getElem_set_ne]
    simp at h1; omega

lemma drop_set_of_lt (l : List Cell) (i : Nat) (a : Cell) (e : Nat) (h : i < e) :
    (l.set i a).drop e = l.drop e := by
  apply List.ext_getElem
  · simp
  · intro n h1 h2
    rw [List.getElem_drop, List.getElem_drop, List.getElem_set_ne]
    omega

lemma drop_set_self (l : List Cell) (a : Cell) (e : Nat) (h : e < l.length) :
    (l.set e a).drop e = a :: l.drop (e + 1) := by
  rw [List.drop_eq_getElem_cons (by simpa using h), List.getElem_set_self]
  congr 1
  apply List.ext_getElem
  · simp
  · intro n h1 h2
    rw [List.getElem_drop, List.getElem_drop, List.getElem_set_ne]
    omega

/-- The invariant-carrying characterization of the inner gravity loop:
with rows `r, ..., length - 1` already processed, positions `r .. e` are
empty and the rest of the column below `e` is already compacted; running
the remaining iterations compacts the first `r` entries into the slots
ending at `e`. -/
lemma gravityColGo_eq :
    ∀ (r : Nat) (col : List Cell) (e : Nat),
      r ≤ e + 1 → e < col.length →
      (∀ j, r ≤ j → j ≤ e → col.getD j none = none) →
      gravityColGo r col e =
        List.replicate (e + 1 - ((col.take r).filterMap id).length) none
          ++ ((col.take r).filterMap id).map some
          ++ col.drop (e + 1) := by
  intro r
  induction r with
  | zero =>
      intro col e _ he hnone
      simp only [gravityColGo, List.take_zero, List.filterMap_nil, List.length_nil,
        Nat.sub_zero, List.map_nil, List.append_nil, List.nil_append]
      conv_lhs => rw [← List.take_append_drop (e + 1) col]
      congr 1
      rw [List.eq_replicate_iff]
      constructor
      · rw [List.length_take]; omega
      · intro b hb
        rw [List.mem_iff_getElem] at hb
        obtain ⟨j, hj, hbj⟩ := hb
        rw [List.getElem_take] at hbj
        have hjl : j < col.length := by simp [List.length_take] at hj; omega
        have := hnone j (Nat.zero_le j) (by simp [List.length_take] at hj; omega)
        rw [List.getD_eq_getElem _ _ hjl] at this
        exact hbj.symm.trans this
  | succ r ih =>
      intro col e hre he hnone
      have hrlen : r < col.length := by omega
      have hfmle : ∀ m, ((col.take m).filterMap id).length ≤ m := fun m =>
        le_trans (List.length_filterMap_le _ _) (by simp [List.length_take])
      have htakes : col.take (r + 1) = col.take r ++ [col[r]] :=
        (List.take_concat_get' col r hrlen).symm
      cases hcr : col[r] with
      | none =>
          have hgd : col.getD r none = none := by
            rw [List.getD_eq_getElem _ _ hrlen, hcr]
          have hfm : (col.take (r + 1)).filterMap id = (col.take r).filterMap id := by
            rw [htakes, hcr, List.filterMap_append]; simp
          simp only [gravityColGo, hgd]
          rw [ih col e (by omega) he
            (fun j h1 h2 => by
              rcases Nat.eq_or_lt_of_le h1 with h | h
              · rw [← h]; exact hgd
              · exact hnone j (by omega) h2)]
          rw [hfm]
      | some v =>
          have hgd : col.getD r none = some v := by
            rw [List.getD_eq_getElem _ _ hrlen, hcr]
          have hfm : (col.take (r + 1)).filterMap id
              = (col.take r).filterMap id ++ [v] := by
            rw [htakes, hcr, List.filterMap_append]; simp
          have hre' : r ≤ e := by omega
          have hk : ((col.take r).filterMap id).length ≤ r := hfmle r
          simp only [gravityColGo, hgd]
          by_cases hreq : r = e
          · subst hreq
            rw [if_neg (by omega)]
            rcases Nat.eq_zero_or_pos r with hr0 | hrpos
            · subst hr0
              simp only [gravityColGo]
              rw [hfm]
              simp only [List.take_zero, List.filterMap_nil, List.nil_append,
                List.length_cons, List.length_nil, Nat.zero_add, Nat.sub_self,
                List.replicate_zero, List.map_cons, List.map_nil]
              have h0 := List.drop_eq_getElem_cons hrlen
              rw [List.drop_zero, hcr] at h0
              simpa using h0
            · rw [ih col (r - 1) (by omega) (by omega)
                (fun j h1 h2 => absurd (le_trans h1 h2) (by omega))]
              rw [hfm]
              have hdrop : col.drop (r - 1 + 1) = some v :: col.drop (r + 1) := by
                have := List.drop_eq_getElem_cons hrlen
                rw [hcr] at this
                rw [show r - 1 + 1 = r by omega, this]
              rw [hdrop]
              simp only [List.length_append, List.map_append,
                List.length_cons, List.length_nil, List.map_cons, List.map_nil]
              rw [show r - 1 + 1 = r by omega,
                show r + 1 - (((col.take r).filterMap id).length + 1)
                  = r - ((col.take r).filterMap id).length by omega]
              simp [List.append_assoc]
          · have hrlt : r < e := by omega
            rw [if_pos hreq]
            have hlen' : ((col.set e (some v)).set r none).length = col.length := by
              simp
            have htake' : ((col.set e (some v)).set r none).take r = col.take r := by
              rw [take_set_of_le _ _ _ _ (le_refl r),
                take_set_of_le _ _ _ _ (le_of_lt hrlt)]
            have hdrop' : ((col.set e (some v)).set r none).drop e
                = some v :: col.drop (e + 1) := by
              rw [drop_set_of_lt _ _ _ _ hrlt, drop_set_self _ _ _ (by omega)]
            rw [ih ((col.set e (some v)).set r none) (e - 1) (by omega)
              (by rw [hlen']; omega)
              (fun j h1 h2 => by
                rcases Nat.eq_or_lt_of_le h1 with h | h
                · subst h
                  rw [List.getD_eq_getElem _ _ (by rw [hlen']; omega),
                    List.getElem_set_self]
                · rw [List.getD_eq_getElem _ _ (by rw [hlen']; omega),
                    List.getElem_set_ne (by omega), List.getElem_set_ne (by omega)]
                  have := hnone j (by omega) (by omega)
                  rwa [List.getD_eq_getElem _ _ (by omega)] at this)]
            rw [htake', hfm]
            rw [show e - 1 + 1 = e by omega, hdrop']
            simp only [List.length_append, List.map_append,
              List.length_cons, List.length_nil, List.map_cons, List.map_nil]
            rw [show e + 1 - (((col.take r).filterMap id).length + 1)
                = e - ((col.take r).filterMap id).length by omega]
            simp [List.append_assoc]

/-- Closed form of one-column gravity: the non-empty cells, in their
original top-to-bottom order, slide to the bottom of the column; the top
fills with `none`. -/
lemma applyGravityCol_eq (col : List Cell) :
    applyGravityCol col =
      List.replicate (col.length - (col.filterMap id).length) none
        ++ (col.filterMap id).map some := by
  cases hcol : col with
  | nil => simp [applyGravityCol, gravityColGo]
  | cons a t =>
      rw [← hcol]
      have hlen : 0 < col.length := by rw [hcol]; simp
      rw [applyGravityCol,
        gravityColGo_eq col.length col (col.length - 1) (by omega) (by omega)
          (fun j h1 h2 => absurd (le_trans h1 h2) (by omega))]
      rw [show col.length - 1 + 1 = col.length by omega, List.drop_length,
        List.take_length, List.append_nil]

lemma length_applyGravityCol (col : List Cell) :
    (applyGravityCol col).length = col.length := by
  rw [applyGravityCol_eq]
  have := List.length_filterMap_le id col
  simp
  omega

lemma filterMap_replicate_none (n : Nat) :
    (List.replicate n (none : Cell)).filterMap id = [] := by
  induction n with
  | zero => simp
  | succ k ih => rw [List.replicate_succ, List.filterMap_cons]; simpa using ih

lemma filterMap_map_some (l : List Color) :
    (l.map (some : Color → Cell)).filterMap id = l := by
  induction l with
  | nil => simp
  | cons a t ih => simp [List.filterMap_cons, ih]

lemma filterMap_applyGravityCol (col : List Cell) :
    (applyGravityCol col).filterMap id = col.filterMap id := by
  rw [applyGravityCol_eq, List.filterMap_append, filterMap_replicate_none,
    filterMap_map_some, List.nil_append]

lemma applyGravityCol_idem (col : List Cell) :
    applyGravityCol (applyGravityCol col) = applyGravityCol col := by
  conv_lhs => rw [applyGravityCol_eq]
  rw [filterMap_applyGravityCol, length_applyGravityCol]
  rw [applyGravityCol_eq]

lemma ofFn_getD (l : List Cell) (h : l.length = GRID_ROWS) :
    (List.ofFn fun i : Fin GRID_ROWS => l.getD i none) = l := by
  apply List.ext_getElem
  · simp [h, GRID_ROWS]
  · intro n h1 h2
    simp only [List.getElem_ofFn]
    rw [List.getD_eq_getElem _ _ (by omega)]

/-- The column of the post-gravity board is one-column gravity of the
original column. -/
lemma colList_applyGravity (g : Grid) (x : Fin GRID_COLS) :
    colList (applyGravity g) x = applyGravityCol (colList g x) := by
  unfold colList applyGravity
  apply ofFn_getD
  rw [length_applyGravityCol]
  simp [colList, GRID_ROWS]

/-! ## Counting non-empty cells -/

/-- The number of non-empty cells on the board. -/
def nonEmptyCount (g : Grid) : Nat :=
  (Finset.univ.filter fun p : Pos => (colorAt g p).isSome).card

lemma length_filterMap_id_eq_countP (l : List Cell) :
    (l.filterMap id).length = l.countP (fun o => o.isSome) := by
  induction l with
  | nil => simp
  | cons a t ih =>
      cases a with
      | none => simpa [List.filterMap_cons, List.countP_cons] using ih
      | some v => simpa [List.filterMap_cons, List.countP_cons] using ih

lemma countP_ofFn {n : Nat} (f : Fin n → Cell) (p : Cell → Bool) :
    (List.ofFn f).countP p = (Finset.univ.filter fun i => p (f i) = true).card := by
  induction n with
  | zero => simp
  | succ k ih =>
      rw [List.ofFn_succ, List.countP_cons, Finset.card_filter, Fin.sum_univ_succ,
        ← Finset.card_filter, ih (fun i => f i.succ)]
      omega

lemma nonEmptyCount_eq_sum (g : Grid) :
    nonEmptyCount g = ∑ x : Fin GRID_COLS, ((colList g x).filterMap id).length := by
  unfold nonEmptyCount
  rw [Finset.card_filter, Fintype.sum_prod_type, Finset.sum_comm]
  apply Finset.sum_congr rfl
  intro x _
  rw [length_filterMap_id_eq_countP]
  unfold colList
  rw [countP_ofFn, Finset.card_filter]
  rfl

/-- Gravity does not create or destroy cells. -/
lemma nonEmptyCount_applyGravity (g : Grid) :
    nonEmptyCount (applyGravity g) = nonEmptyCount g := by
  rw [nonEmptyCount_eq_sum, nonEmptyCount_eq_sum]
  apply Finset.sum_congr rfl
  intro x _
  rw [colList_applyGravity, filterMap_applyGravityCol]

/-! ## Removal -/

/-- Pointwise description of `removeMatchedPuyos`: a cell is cleared
exactly when its position occurs in the list. -/
lemma removeMatchedPuyos_apply (g : Grid) (ms : List Pos) (r : Fin GRID_ROWS)
    (c : Fin GRID_COLS) :
    removeMatchedPuyos g ms r c = if (r, c) ∈ ms then none else g r c := by
  induction ms generalizing g with
  | nil => simp [removeMatchedPuyos]
  | cons p t ih =>
      show removeMatchedPuyos _ t r c = _
      rw [ih]
      by_cases ht : (r, c) ∈ t
      · simp [ht]
      · by_cases hp : (r, c) = p
        · simp [ht, hp]
        · simp [ht, hp]

/-- Removing a non-empty list of non-empty positions strictly decreases
the number of non-empty cells. -/
lemma nonEmptyCount_remove_lt (g : Grid) (ms : List Pos)
    (hne : ms ≠ []) (hsome : ∀ q ∈ ms, (colorAt g q).isSome) :
    nonEmptyCount (removeMatchedPuyos g ms) < nonEmptyCount g := by
  apply Finset.card_lt_card
  constructor
  · intro p hp
    rw [Finset.mem_filter] at hp ⊢
    refine ⟨Finset.mem_univ p, ?_⟩
    have := hp.2
    rw [show colorAt (removeMatchedPuyos g ms) p = removeMatchedPuyos g ms p.1 p.2
      from rfl, removeMatchedPuyos_apply] at this
    by_cases hm : (p.1, p.2) ∈ ms
    · rw [if_pos hm] at this; simp at this
    · rw [if_neg hm] at this; exact this
  · intro hsub
    obtain ⟨q, hq⟩ : ∃ q, q ∈ ms := by
      cases ms with
      | nil => exact absurd rfl hne
      | cons a t => exact ⟨a, List.mem_cons_self a t⟩
    have hqin : q ∈ Finset.univ.filter fun p : Pos => (colorAt g p).isSome := by
      rw [Finset.mem_filter]
      exact ⟨Finset.mem_univ q, hsome q hq⟩
    have := hsub hqin
    rw [Finset.mem_filter] at this
    have h2 := this.2
    rw [show colorAt (removeMatchedPuyos g ms) q = removeMatchedPuyos g ms q.1 q.2
      from rfl, removeMatchedPuyos_apply, if_pos (by simpa using hq)] at h2
    simp at h2

/-! ## The flood fill computes connected components -/

/-- One step of the flood fill seen as a relation: `q` is a neighbor of
`p` reached through one of the four scan directions, and `q` carries the
color being matched. -/
def stepRel (g : Grid) (c : Color) (p q : Pos) : Prop :=
  (∃ d ∈ directions, mkPos? ((p.1 : Int) + d.1) ((p.2 : Int) + d.2) = some q) ∧
    colorAt g q = some c

/-- Reachability through same-colored neighbor steps: `q` lies in the
connected component explored from `s`. -/
def ReachC (g : Grid) (c : Color) (s q : Pos) : Prop :=
  Relation.ReflTransGen (stepRel g c) s q

lemma mem_pushCands_iff {g : Grid} {c : Color} {v : Finset Pos} {p q : Pos} :
    q ∈ pushCands g c v p ↔ stepRel g c p q ∧ q ∉ v := by
  rw [mem_pushCands, stepRel, and_assoc]

/-- Invariant-carrying correctness of the flood-fill loop: starting from
a state whose group is exactly the explored-or-scheduled cells, the loop
returns precisely the cells reachable from `s`. -/
lemma bfsGo_mem_iff (g : Grid) (c : Color) (s : Pos) :
    ∀ (group queue : List Pos) (visited : Finset Pos),
      (∀ q ∈ queue, q ∈ group) →
      (∀ q ∈ visited, q ∈ group) →
      (∀ q ∈ group, q ∈ queue ∨ q ∈ visited) →
      (∀ q ∈ visited, ∀ w, stepRel g c q w → w ∈ group) →
      (∀ q ∈ group, ReachC g c s q) →
      s ∈ group →
      ∀ w, w ∈ bfsGo g c group queue visited ↔ ReachC g c s w := by
  intro group queue visited
  induction group, queue, visited using bfsGo.induct g c with
  | case1 group visited =>
      intro hqg hvg hgqv hcl hreach hs w
      rw [show bfsGo g c group [] visited = group from by simp [bfsGo]]
      constructor
      · exact fun h => hreach w h
      · intro hw
        induction hw with
        | refl => exact hs
        | tail hab hbw ih =>
            rename_i b w'
            rcases hgqv b ih with hbq | hbv
            · exact absurd hbq (by simp)
            · exact hcl b hbv w' hbw
  | case2 group p rest visited visited' nbrs ih =>
      intro hqg hvg hgqv hcl hreach hs w
      rw [show bfsGo g c group (p :: rest) visited
          = bfsGo g c (group ++ nbrs) (rest ++ nbrs) visited' from by
        rw [bfsGo]]
      have hpg : p ∈ group := hqg p (by simp)
      have hvg' : ∀ q ∈ visited', q ∈ group ++ nbrs := by
        intro q hq
        rcases Finset.mem_insert.mp hq with h | h
        · exact List.mem_append_left _ (h ▸ hpg)
        · exact List.mem_append_left _ (hvg q h)
      apply ih
      · intro q hq
        rcases List.mem_append.mp hq with h | h
        · exact List.mem_append_left _ (hqg q (List.mem_cons_of_mem _ h))
        · exact List.mem_append_right _ h
      · exact hvg'
      · intro q hq
        rcases List.mem_append.mp hq with h | h
        · rcases hgqv q h with h2 | h2
          · rcases List.mem_cons.mp h2 with h3 | h3
            · exact Or.inr (h3 ▸ Finset.mem_insert_self p visited)
            · exact Or.inl (List.mem_append_left _ h3)
          · exact Or.inr (Finset.mem_insert_of_mem h2)
        · exact Or.inl (List.mem_append_right _ h)
      · intro q hq w' hw'
        rcases Finset.mem_insert.mp hq with h | h
        · subst h
          by_cases hv : w' ∈ visited'
          · exact hvg' w' hv
          · exact List.mem_append_right _ (mem_pushCands_iff.mpr ⟨hw', hv⟩)
        · exact List.mem_append_left _ (hcl q h w' hw')
      · intro q hq
        rcases List.mem_append.mp hq with h | h
        · exact hreach q h
        · have := (mem_pushCands_iff.mp h).1
          exact Relation.ReflTransGen.tail (hreach p hpg) this
      · exact List.mem_append_left _ hs

/-- Correctness of one whole flood fill from a non-empty start cell. -/
lemma bfs_start_mem_iff {g : Grid} {c : Color} {s : Pos} :
    ∀ w, w ∈ bfsGo g c [s] [s] ∅ ↔ ReachC g c s w := by
  apply bfsGo_mem_iff
  · intro q hq; exact hq
  · intro q hq; exact absurd hq (Finset.not_mem_empty q)
  · intro q hq; exact Or.inl hq
  · intro q hq; exact absurd hq (Finset.not_mem_empty q)
  · intro q hq
    rw [List.mem_singleton] at hq
    exact hq ▸ Relation.ReflTransGen.refl
  · simp

/-- Every cell reachable from a cell of color `c` has color `c`. -/
lemma reach_color {g : Grid} {c : Color} {s q : Pos}
    (hcs : colorAt g s = some c) (h : ReachC g c s q) : colorAt g q = some c := by
  induction h with
  | refl => exact hcs
  | tail _ hbw _ => exact hbw.2

/-- Every position collected by `findMatches` is a non-empty cell. -/
lemma mem_findMatches_isSome {g : Grid} {q : Pos} (h : q ∈ findMatches g) :
    (colorAt g q).isSome := by
  rw [findMatches, List.mem_flatMap] at h
  obtain ⟨p, _, hq⟩ := h
  revert hq
  unfold cellMatches
  cases hc : colorAt g p with
  | none => simp
  | some c =>
      simp only
      split
      · intro hq
        have := reach_color hc (bfs_start_mem_iff q |>.mp hq)
        simp [this]
      · simp

/-! ## The chain engine -/

/-- Every matched position is a non-empty cell, so removing a non-empty
match list strictly shrinks the board; this bounds the recursion of
`animateChain`. -/
lemma chain_measure (g : Grid) (h : findMatches g ≠ []) :
    nonEmptyCount (applyGravity (removeMatchedPuyos g (findMatches g)))
      < nonEmptyCount g := by
  rw [nonEmptyCount_applyGravity]
  exact nonEmptyCount_remove_lt g _ h (fun q hq => mem_findMatches_isSome hq)

/-- `animateChain` (source lines 259-301), with the presentation delays,
sounds and display timers dropped.  Returns the settled grid, the total
score gained, and the successive values passed to `setChainCounter`
(`chainCount + 1` on each matching pass, then the final `0`). -/
def animateChain (g : Grid) (chainCount : Nat) : Grid × Nat × List Nat :=
  let m := findMatches g
  if h : m = [] then (g, 0, [0])
  else
    let newGrid := removeMatchedPuyos g m
    let gridAfterGravity := applyGravity newGrid
    let r := animateChain gridAfterGravity (chainCount + 1)
    (r.1, m.length * 10 * (chainCount + 1) + r.2.1, (chainCount + 1) :: r.2.2)
termination_by nonEmptyCount g
decreasing_by exact chain_measure g h

/-! ## The piece controller and session state -/

/-- The source's `GameState` string union. -/
inductive GState where
  | title | active | over | pause
deriving DecidableEq, Repr

/-- A move direction accepted by `movePuyo`. -/
inductive MoveDir where
  | left | right | down
deriving DecidableEq, Repr

/-- A rotation direction accepted by `rotatePuyo`. -/
inductive RotDir where
  | left | right
deriving DecidableEq, Repr

/-- The source's `PuyoPair`: two cells, the anchor coordinates of the
first cell (`x` = column, `y` = row) and a rotation in `{0, 1, 2, 3}`. -/
structure PuyoPair where
  color1 : Cell
  color2 : Cell
  x : Int
  y : Int
  rotation : Int
deriving DecidableEq, Repr

/-- `generatePuyoPair` with the two randomly drawn colors supplied by the
caller: the new pair sits at the fixed spawn anchor `x = 2`, `y = 0`,
`rotation = 0`. -/
def generatePuyoPair (c1 c2 : Color) : PuyoPair :=
  { color1 := some c1, color2 := some c2, x := 2, y := 0, rotation := 0 }

/-- `getSecondPuyoPosition` (source lines 228-236): the second cell's
`[x2, y2]` as a function of the rotation. -/
def getSecondPuyoPosition (x y rotation : Int) : Int × Int :=
  if rotation = 0 then (x, y - 1)
  else if rotation = 1 then (x + 1, y)
  else if rotation = 2 then (x, y + 1)
  else if rotation = 3 then (x - 1, y)
  else (x, y)

/-- The mutable React state of the component, gathered into one record
(display-only fields and timers omitted). -/
@[ext]
structure Game where
  grid : Grid
  gameState : GState
  score : Nat
  currentPuyo : Option PuyoPair
  nextPuyos : List PuyoPair
  chainCounter : Nat
  isPaused : Bool
  heldPuyo : Option PuyoPair
  canHold : Bool

/-- `isValidMove` (source lines 217-226): both cells in bounds and on
empty board cells. -/
def isValidMove (g : Grid) (puyo : PuyoPair) : Bool :=
  let p2 := getSecondPuyoPosition puyo.x puyo.y puyo.rotation
  decide (0 ≤ puyo.x ∧ puyo.x < GRID_COLS ∧ 0 ≤ puyo.y ∧ puyo.y < GRID_ROWS
      ∧ 0 ≤ p2.1 ∧ p2.1 < GRID_COLS ∧ 0 ≤ p2.2 ∧ p2.2 < GRID_ROWS)
    && (cellAt g puyo.y puyo.x).isNone && (cellAt g p2.2 p2.1).isNone

/-- `placePuyo` (source lines 303-336): bounds-check the resting piece
(game over on failure), write both cells, apply gravity, run the chain to
settlement, and spawn the front of the queue, refilling the queue with
the freshly generated pair `fresh`. -/
def placePuyo (fresh : PuyoPair) (s : Game) : Game :=
  match s.currentPuyo with
  | none => s
  | some cur =>
      let p2 := getSecondPuyoPosition cur.x cur.y cur.rotation
      if cur.y < 0 ∨ GRID_ROWS ≤ cur.y ∨ cur.x < 0 ∨ GRID_COLS ≤ cur.x
          ∨ p2.2 < 0 ∨ GRID_ROWS ≤ p2.2 ∨ p2.1 < 0 ∨ GRID_COLS ≤ p2.1 then
        { s with gameState := GState.over }
      else
        let g1 := updateCell (updateCell s.grid cur.y cur.x cur.color1) p2.2 p2.1 cur.color2
        let g2 := applyGravity g1
        let chainResult := animateChain g2 0
        { s with
          grid := chainResult.1
          score := s.score + chainResult.2.1
          chainCounter := 0
          currentPuyo := s.nextPuyos.head?
          nextPuyos := s.nextPuyos.tail ++ [fresh]
          canHold := true }

/-- `movePuyo` (source lines 191-204): shift the anchor, commit when
valid; an invalid `down` triggers `placePuyo`, an invalid `left`/`right`
does nothing. -/
def movePuyo (fresh : PuyoPair) (d : MoveDir) (s : Game) : Game :=
  match s.currentPuyo with
  | none => s
  | some cur =>
      if s.gameState ≠ GState.active ∨ s.isPaused then s
      else
        let newPuyo :=
          match d with
          | MoveDir.left => { cur with x := cur.x - 1 }
          | MoveDir.right => { cur with x := cur.x + 1 }
          | MoveDir.down => { cur with y := cur.y + 1 }
        if isValidMove s.grid newPuyo then { s with currentPuyo := some newPuyo }
        else if d = MoveDir.down then placePuyo fresh s
        else s

/-- `rotatePuyo` (source lines 206-215): cycle the rotation by plus or
minus one modulo 4 (`(rotation ± 1 + 4) % 4`); commit only when valid.
On the rotations `0..3` actually stored, Lean's `Int` `%` agrees with
the JavaScript remainder, since the dividend is non-negative. -/
def rotatePuyo (d : RotDir) (s : Game) : Game :=
  match s.currentPuyo with
  | none => s
  | some cur =>
      if s.gameState ≠ GState.active ∨ s.isPaused then s
      else
        let newPuyo :=
          { cur with rotation :=
              (cur.rotation + (if d = RotDir.left then -1 else 1) + 4) % 4 }
        if isValidMove s.grid newPuyo then { s with currentPuyo := some newPuyo }
        else s

/-- `holdPuyo` (source lines 338-353): gated by `canHold`; swap with the
held piece (reset to the spawn anchor) or store the current piece and
draw from the queue. -/
def holdPuyo (fresh : PuyoPair) (s : Game) : Game :=
  match s.currentPuyo with
  | none => s
  | some cur =>
      if s.canHold = false ∨ s.gameState ≠ GState.active ∨ s.isPaused then s
      else
        match s.heldPuyo with
        | some held =>
            { s with
              currentPuyo := some { held with x := 2, y := 0, rotation := 0 }
              heldPuyo := some cur
              canHold := false }
        | none =>
            { s with
              heldPuyo := some cur
              currentPuyo := s.nextPuyos.head?
              nextPuyos := s.nextPuyos.tail ++ [fresh]
              canHold := false }

/-! ## Fuel-indexed evaluators

`bfsGo` and `animateChain` recurse along well-founded measures, which the
kernel does not reduce; these structurally recursive twins compute the
same answers (witnessed by the adequacy lemmas) and let concrete boards
be evaluated by `decide`. -/

def bfsFuel (g : Grid) (c : Color) :
    Nat → List Pos → List Pos → Finset Pos → Option (List Pos)
  | 0, _, _, _ => none
  | _ + 1, group, [], _ => some group
  | f + 1, group, p :: rest, visited =>
      let visited' := insert p visited
      let nbrs := pushCands g c visited' p
      bfsFuel g c f (group ++ nbrs) (rest ++ nbrs) visited'

lemma bfsFuel_eq {g : Grid} {c : Color} :
    ∀ {f : Nat} {group queue : List Pos} {visited : Finset Pos} {res : List Pos},
      bfsFuel g c f group queue visited = some res →
      bfsGo g c group queue visited = res := by
  intro f
  induction f with
  | zero =>
      intro group queue visited res h
      exact absurd h (by simp [bfsFuel])
  | succ k ih =>
      intro group queue visited res h
      cases queue with
      | nil =>
          rw [bfsFuel] at h
          injection h with h
          rw [show bfsGo g c group [] visited = group from by simp [bfsGo]]
          exact h
      | cons p rest =>
          rw [bfsFuel] at h
          rw [show bfsGo g c group (p :: rest) visited
              = bfsGo g c (group ++ pushCands g c (insert p visited) p)
                  (rest ++ pushCands g c (insert p visited) p)
                  (insert p visited) from by rw [bfsGo]]
          exact ih h

def cellMatchesFuel (f : Nat) (g : Grid) (p : Pos) : Option (List Pos) :=
  match colorAt g p with
  | some c =>
      (bfsFuel g c f [p] [p] ∅).map fun group =>
        if 4 ≤ group.length then group else []
  | none => some []

lemma cellMatchesFuel_eq {f : Nat} {g : Grid} {p : Pos} {res : List Pos}
    (h : cellMatchesFuel f g p = some res) : cellMatches g p = res := by
  cases hc : colorAt g p with
  | none =>
      simp only [cellMatchesFuel, hc, Option.some.injEq] at h
      simp only [cellMatches, hc]
      exact h
  | some c =>
      simp only [cellMatchesFuel, hc, Option.map_eq_some'] at h
      obtain ⟨group, hg, hres⟩ := h
      simp only [cellMatches, hc]
      rw [bfsFuel_eq hg]
      exact hres

def listMatchesFuel (f : Nat) (g : Grid) : List Pos → Option (List Pos)
  | [] => some []
  | p :: t =>
      match cellMatchesFuel f g p, listMatchesFuel f g t with
      | some a, some b => some (a ++ b)
      | _, _ => none

lemma listMatchesFuel_eq {f : Nat} {g : Grid} :
    ∀ {l : List Pos} {res : List Pos},
      listMatchesFuel f g l = some res → l.flatMap (cellMatches g) = res := by
  intro l
  induction l with
  | nil =>
      intro res h
      simp only [listMatchesFuel, Option.some.injEq] at h
      simpa using h
  | cons p t ih =>
      intro res h
      rw [listMatchesFuel] at h
      cases hc : cellMatchesFuel f g p with
      | none =>
          simp only [hc] at h
          exact Option.noConfusion h
      | some a =>
          cases ht : listMatchesFuel f g t with
          | none =>
              simp only [hc, ht] at h
              exact Option.noConfusion h
          | some b =>
              simp only [hc, ht, Option.some.injEq] at h
              rw [List.flatMap_cons, cellMatchesFuel_eq hc, ih ht]
              exact h

def findMatchesFuel (f : Nat) (g : Grid) : Option (List Pos) :=
  listMatchesFuel f g allPositions

lemma findMatchesFuel_eq {f : Nat} {g : Grid} {res : List Pos}
    (h : findMatchesFuel f g = some res) : findMatches g = res :=
  listMatchesFuel_eq h

def chainFuel (bfsF : Nat) : Nat → Grid → Nat → Option (Grid × Nat × List Nat)
  | 0, _, _ => none
  | f + 1, g, n =>
      match findMatchesFuel bfsF g with
      | none => none
      | some [] => some (g, 0, [0])
      | some (q :: t) =>
          match chainFuel bfsF f
              (applyGravity (removeMatchedPuyos g (q :: t))) (n + 1) with
          | none => none
          | some r => some (r.1, (q :: t).length * 10 * (n + 1) + r.2.1, (n + 1) :: r.2.2)

lemma chainFuel_eq {bfsF : Nat} :
    ∀ {f : Nat} {g : Grid} {n : Nat} {r : Grid × Nat × List Nat},
      chainFuel bfsF f g n = some r → animateChain g n = r := by
  intro f
  induction f with
  | zero =>
      intro g n r h
      exact absurd h (by simp [chainFuel])
  | succ k ih =>
      intro g n r h
      rw [chainFuel] at h
      cases hf : findMatchesFuel bfsF g with
      | none =>
          simp only [hf] at h
          exact Option.noConfusion h
      | some m =>
          have hm : findMatches g = m := findMatchesFuel_eq hf
          cases m with
          | nil =>
              simp only [hf, Option.some.injEq] at h
              rw [animateChain]
              simp only [hm]
              simpa using h
          | cons q t =>
              simp only [hf] at h
              cases hc : chainFuel bfsF k
                  (applyGravity (removeMatchedPuyos g (q :: t))) (n + 1) with
              | none =>
                  simp only [hc] at h
                  exact Option.noConfusion h
              | some r' =>
                  simp only [hc, Option.some.injEq] at h
                  rw [animateChain]
                  simp only [hm]
                  rw [dif_neg (by simp)]
                  rw [ih hc]
                  exact h

/-! ## Spec-side match characterization -/

/-- Spec-side 4-directional adjacency (up/down/left/right, no
diagonals): exactly one coordinate differs, and by exactly one. -/
def adjacent (p q : Pos) : Prop :=
  ((p.1 : Int) = (q.1 : Int) ∧ ((p.2 : Int) - (q.2 : Int)).natAbs = 1) ∨
    ((p.2 : Int) = (q.2 : Int) ∧ ((p.1 : Int) - (q.1 : Int)).natAbs = 1)

lemma mkPos?_eq_some {a b : Int} {q : Pos} :
    mkPos? a b = some q ↔ (q.1 : Int) = a ∧ (q.2 : Int) = b := by
  have hq1 := q.1.isLt
  have hq2 := q.2.isLt
  unfold mkPos?
  split
  · next h =>
      constructor
      · intro he
        injection he with he
        rw [← he]
        constructor
        · show ((Int.toNat a : Nat) : Int) = a
          omega
        · show ((Int.toNat b : Nat) : Int) = b
          omega
      · rintro ⟨h1, h2⟩
        rw [Option.some.injEq]
        refine Prod.ext (Fin.ext ?_) (Fin.ext ?_)
        · show a.toNat = (q.1 : Nat)
          omega
        · show b.toNat = (q.2 : Nat)
          omega
  · next h =>
      constructor
      · intro he
        exact absurd he (by simp)
      · rintro ⟨h1, h2⟩
        exfalso
        apply h
        refine ⟨by omega, by rw [← h1]; exact_mod_cast hq1, by omega,
          by rw [← h2]; exact_mod_cast hq2⟩

/-- The flood-fill step relation is exactly spec-side adjacency together
with the color test on the target cell. -/
lemma stepRel_iff {g : Grid} {c : Color} {p q : Pos} :
    stepRel g c p q ↔ adjacent p q ∧ colorAt g q = some c := by
  unfold stepRel
  have hdir : (∃ d ∈ directions,
      mkPos? ((p.1 : Int) + d.1) ((p.2 : Int) + d.2) = some q) ↔ adjacent p q := by
    constructor
    · rintro ⟨d, hd, hmk⟩
      rw [mkPos?_eq_some] at hmk
      simp only [directions, List.mem_cons, List.not_mem_nil, or_false] at hd
      rcases hd with h | h | h | h <;> subst h <;> unfold adjacent <;> omega
    · intro had
      unfold adjacent at had
      rcases had with ⟨h1, h2⟩ | ⟨h1, h2⟩
      · rcases (by omega : (q.2 : Int) = (p.2 : Int) + 1 ∨ (q.2 : Int) = (p.2 : Int) - 1)
          with h3 | h3
        · exact ⟨(0, 1), by simp [directions], mkPos?_eq_some.mpr ⟨by omega, by omega⟩⟩
        · exact ⟨(0, -1), by simp [directions], mkPos?_eq_some.mpr ⟨by omega, by omega⟩⟩
      · rcases (by omega : (q.1 : Int) = (p.1 : Int) + 1 ∨ (q.1 : Int) = (p.1 : Int) - 1)
          with h3 | h3
        · exact ⟨(1, 0), by simp [directions], mkPos?_eq_some.mpr ⟨by omega, by omega⟩⟩
        · exact ⟨(-1, 0), by simp [directions], mkPos?_eq_some.mpr ⟨by omega, by omega⟩⟩
  rw [hdir]

/-- The grid graph has no triangles: two cells cannot both be adjacent
to each other and to a common third cell (parity of the coordinate sum
flips along every edge). -/
lemma no_triangle {x y z : Pos} (h1 : adjacent x y) (h2 : adjacent y z)
    (h3 : adjacent x z) : False := by
  unfold adjacent at h1 h2 h3
  omega

lemma adjacent_symm {p q : Pos} (h : adjacent p q) : adjacent q p := by
  unfold adjacent at h ⊢
  omega

lemma adjacent_irrefl {p : Pos} (h : adjacent p p) : False := by
  unfold adjacent at h
  omega

/-- Reachability between same-colored cells is symmetric. -/
lemma reach_symm {g : Grid} {c : Color} {s q : Pos}
    (hcs : colorAt g s = some c) (h : ReachC g c s q) : ReachC g c q s := by
  induction h with
  | refl => exact Relation.ReflTransGen.refl
  | tail hab hbw ih =>
      rename_i b w
      have hcb : colorAt g b = some c := reach_color hcs hab
      have hback : stepRel g c w b :=
        stepRel_iff.mpr ⟨adjacent_symm (stepRel_iff.mp hbw).1, hcb⟩
      exact Relation.ReflTransGen.head hback ih

/-- The same-colored connected component explored from `p`. -/
def component (g : Grid) (c : Color) (p : Pos) : Set Pos :=
  {q | ReachC g c p q}

/-- Spec-side description of a matched position: a non-empty cell whose
4-directionally connected same-colored component has at least 4 cells. -/
def specMatched (g : Grid) (p : Pos) : Prop :=
  ∃ c, colorAt g p = some c ∧ 4 ≤ (component g c p).ncard

/-- Two cells of one component span the same component. -/
lemma component_eq_of_mem {g : Grid} {c : Color} {s p : Pos}
    (hcs : colorAt g s = some c) (hp : p ∈ component g c s) :
    component g c p = component g c s := by
  apply Set.eq_of_subset_of_subset
  · intro q hq
    exact Relation.ReflTransGen.trans hp hq
  · intro q hq
    exact Relation.ReflTransGen.trans (reach_symm hcs hp) hq

/-- The push-candidate list never repeats a position (the four direction
offsets land on four different cells). -/
lemma nodup_pushCands (g : Grid) (c : Color) (v : Finset Pos) (p : Pos) :
    (pushCands g c v p).Nodup := by
  unfold pushCands
  apply List.Nodup.filterMap
  · intro d d' q hq hq'
    have hmk : ∀ e : Int × Int,
        q ∈ ((mkPos? ((p.1 : Int) + e.1) ((p.2 : Int) + e.2)).bind fun r =>
          if colorAt g r = some c ∧ r ∉ v then some r else none) →
        (q.1 : Int) = (p.1 : Int) + e.1 ∧ (q.2 : Int) = (p.2 : Int) + e.2 := by
      intro e he
      rw [Option.mem_def, Option.bind_eq_some] at he
      obtain ⟨r, hr, hite⟩ := he
      have : r = q := by
        split at hite
        · exact Option.some.inj hite
        · exact absurd hite (by simp)
      subst this
      exact mkPos?_eq_some.mp hr
    have e1 := hmk d hq
    have e2 := hmk d' hq'
    have : d.1 = d'.1 ∧ d.2 = d'.2 := by omega
    exact Prod.ext this.1 this.2
  · decide

/-- A duplicate-free list inside a set is no longer than the set's size. -/
lemma nodup_length_le_ncard {l : List Pos} {T : Set Pos} (hnd : l.Nodup)
    (hsub : ∀ q ∈ l, q ∈ T) : l.length ≤ T.ncard := by
  have h1 : l.toFinset.card = l.length := List.toFinset_card_of_nodup hnd
  have h2 : (↑l.toFinset : Set Pos) ⊆ T := by
    intro q hq
    simp only [Finset.coe_sort_coe, List.coe_toFinset, Set.mem_setOf_eq] at hq
    exact hsub q (by simpa using hq)
  calc l.length = (↑l.toFinset : Set Pos).ncard := by
        rw [Set.ncard_coe_Finset, h1]
    _ ≤ T.ncard := Set.ncard_le_ncard h2 (Set.toFinite T)

lemma ncard_ge_four_of_distinct {K : Set Pos} {a b c d : Pos}
    (ha : a ∈ K) (hb : b ∈ K) (hc : c ∈ K) (hd : d ∈ K)
    (hab : a ≠ b) (hac : a ≠ c) (had : a ≠ d)
    (hbc : b ≠ c) (hbd : b ≠ d) (hcd : c ≠ d) : 4 ≤ K.ncard := by
  have hsub : ({a, b, c, d} : Set Pos) ⊆ K := by
    intro x hx
    simp only [Set.mem_insert_iff, Set.mem_singleton_iff] at hx
    rcases hx with h | h | h | h <;> subst h <;> assumption
  have h4 : ({a, b, c, d} : Set Pos).ncard = 4 := by
    rw [Set.ncard_insert_of_not_mem (by simp [hab, hac, had]),
      Set.ncard_insert_of_not_mem (by simp [hbc, hbd]), Set.ncard_pair hcd]
  calc 4 = ({a, b, c, d} : Set Pos).ncard := h4.symm
    _ ≤ K.ncard := Set.ncard_le_ncard hsub (Set.toFinite K)

/-- A flood fill started inside a component of at most 3 cells collects
at most 3 entries: such a component is a path in the triangle-free grid
graph, and along a path this loop never pushes a cell twice. -/
lemma bfs_small {g : Grid} {c : Color} {s : Pos} (hcs : colorAt g s = some c)
    (hcard : (component g c s).ncard ≤ 3) :
    (bfsGo g c [s] [s] ∅).length ≤ 3 := by
  have hsK : s ∈ component g c s := Relation.ReflTransGen.refl
  have hmemN : ∀ (V : Finset Pos) (p : Pos), ReachC g c s p →
      ∀ q ∈ pushCands g c V p,
        stepRel g c p q ∧ q ∈ component g c s ∧ q ∉ V := by
    intro V p hp q hq
    have h := mem_pushCands_iff.mp hq
    exact ⟨h.1, Relation.ReflTransGen.tail hp h.1, h.2⟩
  rw [show bfsGo g c [s] [s] ∅
      = bfsGo g c ([s] ++ pushCands g c (insert s ∅) s)
          ([] ++ pushCands g c (insert s ∅) s) (insert s ∅) from by rw [bfsGo]]
  have hnd1 := nodup_pushCands g c (insert s ∅) s
  have hlen1 : (pushCands g c (insert s ∅) s).length ≤ 2 := by
    have hb : (pushCands g c (insert s ∅) s).length
        ≤ (component g c s \ {s}).ncard := by
      apply nodup_length_le_ncard hnd1
      intro q hq
      have h := hmemN _ s Relation.ReflTransGen.refl q hq
      simp only [Set.mem_diff, Set.mem_singleton_iff]
      exact ⟨h.2.1, by simpa using h.2.2⟩
    have hd : (component g c s \ {s}).ncard = (component g c s).ncard - 1 :=
      Set.ncard_diff_singleton_of_mem hsK
    omega
  generalize hn1 : pushCands g c (insert s ∅) s = n1 at *
  cases n1 with
  | nil =>
      simp only [List.append_nil]
      rw [show bfsGo g c [s] [] (insert s ∅) = [s] from by simp [bfsGo]]
      simp
  | cons a t1 =>
    cases t1 with
    | nil =>
        -- n1 = [a]
        have ha := hmemN _ s Relation.ReflTransGen.refl a (hn1 ▸ List.mem_singleton_self a)
        have haK : a ∈ component g c s := ha.2.1
        have has : a ≠ s := by simpa using ha.2.2
        simp only [List.nil_append]
        rw [show bfsGo g c ([s] ++ [a]) [a] (insert s ∅)
            = bfsGo g c (([s] ++ [a]) ++ pushCands g c (insert a (insert s ∅)) a)
                ([] ++ pushCands g c (insert a (insert s ∅)) a)
                (insert a (insert s ∅)) from by rw [bfsGo]]
        have hnd2 := nodup_pushCands g c (insert a (insert s ∅)) a
        have hlen2 : (pushCands g c (insert a (insert s ∅)) a).length ≤ 1 := by
          have hb : (pushCands g c (insert a (insert s ∅)) a).length
              ≤ ((component g c s \ {s}) \ {a}).ncard := by
            apply nodup_length_le_ncard hnd2
            intro q hq
            have h := hmemN _ a haK q hq
            have hq3 : ¬(q = a ∨ q = s) := by simpa using h.2.2
            push_neg at hq3
            simp only [Set.mem_diff, Set.mem_singleton_iff]
            exact ⟨⟨h.2.1, hq3.2⟩, hq3.1⟩
          have hd1 : (component g c s \ {s}).ncard = (component g c s).ncard - 1 :=
            Set.ncard_diff_singleton_of_mem hsK
          have hd2 : ((component g c s \ {s}) \ {a}).ncard
              = (component g c s \ {s}).ncard - 1 :=
            Set.ncard_diff_singleton_of_mem (by simp [haK, has])
          omega
        generalize hn2 : pushCands g c (insert a (insert s ∅)) a = n2 at *
        cases n2 with
        | nil =>
            simp only [List.append_nil]
            rw [show bfsGo g c ([s] ++ [a]) [] (insert a (insert s ∅))
                = [s] ++ [a] from by simp [bfsGo]]
            simp
        | cons b t2 =>
          cases t2 with
          | nil =>
              -- n2 = [b]
              have hbf := hmemN _ a haK b (hn2 ▸ List.mem_singleton_self b)
              have hbK : b ∈ component g c s := hbf.2.1
              have hb3 : ¬(b = a ∨ b = s) := by simpa using hbf.2.2
              push_neg at hb3
              obtain ⟨hba, hbs⟩ := hb3
              simp only [List.nil_append]
              rw [show bfsGo g c (([s] ++ [a]) ++ [b]) [b] (insert a (insert s ∅))
                  = bfsGo g c ((([s] ++ [a]) ++ [b])
                        ++ pushCands g c (insert b (insert a (insert s ∅))) b)
                      ([] ++ pushCands g c (insert b (insert a (insert s ∅))) b)
                      (insert b (insert a (insert s ∅))) from by rw [bfsGo]]
              have hn3 : pushCands g c (insert b (insert a (insert s ∅))) b = [] := by
                rw [List.eq_nil_iff_forall_not_mem]
                intro q hq
                have h := hmemN _ b hbK q hq
                have hq3 : ¬(q = b ∨ q = a ∨ q = s) := by simpa using h.2.2
                push_neg at hq3
                obtain ⟨hqb, hqa, hqs⟩ := hq3
                have := ncard_ge_four_of_distinct hsK haK hbK h.2.1
                  (Ne.symm has) (Ne.symm hbs) (Ne.symm hqs)
                  (Ne.symm hba) (Ne.symm hqa) (Ne.symm hqb)
                omega
              rw [hn3]
              simp only [List.append_nil]
              rw [show bfsGo g c (([s] ++ [a]) ++ [b]) []
                    (insert b (insert a (insert s ∅)))
                  = ([s] ++ [a]) ++ [b] from by simp [bfsGo]]
              simp
          | cons b2 t3 =>
              exfalso
              simp [List.length_cons] at hlen2
    | cons a2 t2 =>
      cases t2 with
      | nil =>
          -- n1 = [a, a2]
          have haf := hmemN _ s Relation.ReflTransGen.refl a
            (hn1 ▸ (by simp : a ∈ [a, a2]))
          have hbf := hmemN _ s Relation.ReflTransGen.refl a2
            (hn1 ▸ (by simp : a2 ∈ [a, a2]))
          have haK : a ∈ component g c s := haf.2.1
          have hbK : a2 ∈ component g c s := hbf.2.1
          have has : a ≠ s := by simpa using haf.2.2
          have hbs : a2 ≠ s := by simpa using hbf.2.2
          have hab : a ≠ a2 := by
            have h := hnd1
            simp at h
            exact h
          have hadj_sa : adjacent s a := (stepRel_iff.mp haf.1).1
          have hadj_sb : adjacent s a2 := (stepRel_iff.mp hbf.1).1
          simp only [List.nil_append]
          rw [show bfsGo g c ([s] ++ [a, a2]) [a, a2] (insert s ∅)
              = bfsGo g c (([s] ++ [a, a2]) ++ pushCands g c (insert a (insert s ∅)) a)
                  ([a2] ++ pushCands g c (insert a (insert s ∅)) a)
                  (insert a (insert s ∅)) from by rw [bfsGo]]
          have hn2 : pushCands g c (insert a (insert s ∅)) a = [] := by
            rw [List.eq_nil_iff_forall_not_mem]
            intro q hq
            have h := hmemN _ a haK q hq
            have hq3 : ¬(q = a ∨ q = s) := by simpa using h.2.2
            push_neg at hq3
            obtain ⟨hqa, hqs⟩ := hq3
            by_cases hqb : q = a2
            · subst hqb
              exact no_triangle hadj_sa (stepRel_iff.mp h.1).1 hadj_sb
            · have := ncard_ge_four_of_distinct hsK haK hbK h.2.1
                (Ne.symm has) (Ne.symm hbs) (Ne.symm hqs)
                hab (Ne.symm hqa) (Ne.symm hqb)
              omega
          rw [hn2]
          simp only [List.append_nil]
          rw [show bfsGo g c ([s] ++ [a, a2]) [a2] (insert a (insert s ∅))
              = bfsGo g c (([s] ++ [a, a2])
                    ++ pushCands g c (insert a2 (insert a (insert s ∅))) a2)
                  ([] ++ pushCands g c (insert a2 (insert a (insert s ∅))) a2)
                  (insert a2 (insert a (insert s ∅))) from by rw [bfsGo]]
          have hn3 : pushCands g c (insert a2 (insert a (insert s ∅))) a2 = [] := by
            rw [List.eq_nil_iff_forall_not_mem]
            intro q hq
            have h := hmemN _ a2 hbK q hq
            have hq3 : ¬(q = a2 ∨ q = a ∨ q = s) := by simpa using h.2.2
            push_neg at hq3
            obtain ⟨hqb, hqa, hqs⟩ := hq3
            have := ncard_ge_four_of_distinct hsK haK hbK h.2.1
              (Ne.symm has) (Ne.symm hbs) (Ne.symm hqs)
              hab (Ne.symm hqa) (Ne.symm hqb)
            omega
          rw [hn3]
          simp only [List.append_nil]
          rw [show bfsGo g c ([s] ++ [a, a2]) []
                (insert a2 (insert a (insert s ∅)))
              = [s] ++ [a, a2] from by simp [bfsGo]]
          simp
      | cons a3 t3 =>
          exfalso
          simp [List.length_cons] at hlen1

/-- The collected group passes the `>= 4` test exactly when the true
connected component has at least 4 cells.  (The group list can be longer
than the component because of duplicate pushes, but duplicates only ever
arise inside components of at least 4 cells.) -/
lemma bfs_length_iff {g : Grid} {c : Color} {p : Pos}
    (hc : colorAt g p = some c) :
    4 ≤ (bfsGo g c [p] [p] ∅).length ↔ 4 ≤ (component g c p).ncard := by
  constructor
  · intro h
    by_contra hlt
    push_neg at hlt
    have := bfs_small hc (by omega)
    omega
  · intro h
    have hset : component g c p = ↑(bfsGo g c [p] [p] ∅).toFinset := by
      ext w
      simp only [component, Set.mem_setOf_eq, Finset.coe_sort_coe, List.coe_toFinset,
        Set.mem_setOf_eq, List.mem_toFinset, Finset.mem_coe]
      exact (bfs_start_mem_iff w).symm
    have hle : (component g c p).ncard ≤ (bfsGo g c [p] [p] ∅).length := by
      rw [hset, Set.ncard_coe_Finset]
      exact List.toFinset_card_le _
    omega

lemma mem_allPositions (p : Pos) : p ∈ allPositions := by
  unfold allPositions
  rw [List.mem_flatMap]
  exact ⟨p.1, List.mem_finRange p.1,
    List.mem_map.mpr ⟨p.2, List.mem_finRange p.2, rfl⟩⟩

/-- The positions returned by `findMatches` are exactly the spec-side
matched positions (cells of 4-or-larger same-colored components). -/
lemma mem_findMatches_iff (g : Grid) (p : Pos) :
    p ∈ findMatches g ↔ specMatched g p := by
  constructor
  · intro h
    rw [findMatches, List.mem_flatMap] at h
    obtain ⟨q, _, hp⟩ := h
    revert hp
    unfold cellMatches
    cases hcq : colorAt g q with
    | none => simp
    | some c =>
        simp only
        split
        · next h4 =>
            intro hp
            have hreach : ReachC g c q p := (bfs_start_mem_iff p).mp hp
            have hcp : colorAt g p = some c := reach_color hcq hreach
            refine ⟨c, hcp, ?_⟩
            rw [component_eq_of_mem hcq hreach]
            exact (bfs_length_iff hcq).mp h4
        · simp
  · rintro ⟨c, hcp, h4⟩
    rw [findMatches, List.mem_flatMap]
    refine ⟨p, mem_allPositions p, ?_⟩
    unfold cellMatches
    rw [hcp]
    simp only
    rw [if_pos ((bfs_length_iff hcp).mpr h4)]
    exact (bfs_start_mem_iff p).mpr Relation.ReflTransGen.refl

lemma allPositions_nodup : allPositions.Nodup := by decide

/-- A matched cell contributes a group of length at least 4 to the scan
starting from itself. -/
lemma cellMatches_length_ge {g : Grid} {p : Pos} (h : specMatched g p) :
    4 ≤ (cellMatches g p).length := by
  obtain ⟨c, hcp, h4⟩ := h
  unfold cellMatches
  rw [hcp]
  simp only
  rw [if_pos ((bfs_length_iff hcp).mpr h4)]
  exact (bfs_length_iff hcp).mpr h4

/-- The match list counts every matched cell with multiplicity: its
length is at least 4 times the number of distinct matched cells (each
matched cell's own scan contributes a group of length at least 4). -/
lemma findMatches_length_ge (g : Grid) :
    4 * (findMatches g).toFinset.card ≤ (findMatches g).length := by
  have hlen : (findMatches g).length
      = ∑ p ∈ allPositions.toFinset, (cellMatches g p).length := by
    rw [findMatches, List.length_flatMap,
      List.sum_toFinset _ allPositions_nodup]
    rfl
  rw [hlen]
  have hsub : (findMatches g).toFinset ⊆ allPositions.toFinset := by
    intro p _
    rw [List.mem_toFinset]
    exact mem_allPositions p
  calc 4 * (findMatches g).toFinset.card
      = ∑ _p ∈ (findMatches g).toFinset, 4 := by
        rw [Finset.sum_const, smul_eq_mul, Nat.mul_comm]
    _ ≤ ∑ p ∈ (findMatches g).toFinset, (cellMatches g p).length := by
        apply Finset.sum_le_sum
        intro p hp
        exact cellMatches_length_ge
          ((mem_findMatches_iff g p).mp (List.mem_toFinset.mp hp))
    _ ≤ ∑ p ∈ allPositions.toFinset, (cellMatches g p).length :=
        Finset.sum_le_sum_of_subset hsub

/-! ## Concrete boards and states used by witnesses and counterexamples -/

/-- A board with a single horizontal run of four red cells on the bottom
row (columns 0-3). -/
def b4 : Grid := fun r c => if r.val = 11 ∧ c.val ≤ 3 then some Color.red else none

/-- A board whose bottom row is entirely red: one 6-cell group. -/
def b6 : Grid := fun r c => if r.val = 11 then some Color.red else none

/-- Bottom-left corner position (row 11, column 0). -/
def pos11_0 : Pos := (⟨11, by decide⟩, ⟨0, by decide⟩)

/-- A 2x2 red block in the bottom-left corner (rows 10-11, columns 0-1);
everything else empty. -/
def b22 : Grid := fun r c => if 10 ≤ r.val ∧ c.val ≤ 1 then some Color.red else none

/-! ## Claim C1 -/

/-- Claim C1 (amended): for every board, the positions occurring in
`findMatches` are exactly the positions belonging to a 4-directionally
connected same-colored group of size 4 or more — as a set.  (The
original claim's further assertion that each position occurs exactly
once in the result is false: matched cells occur many times over — once
per start cell of the component, and possibly more than once within a
single scan; see the counterexample.) -/
theorem c1_find_matches_set (g : Grid) (p : Pos) :
    p ∈ findMatches g ↔ specMatched g p :=
  mem_findMatches_iff g p

/-- Claim C1, counterexample to the claim as stated: matched positions
are not unique in `findMatches`' output.  On the board with a single
bottom-row run of four red cells, the bottom-left matched cell occurs
four times, not exactly once (each of the four cells starts its own
flood fill over the whole run).  On a 2x2 red block the over-counting is
worse than once per start cell: each cell occurs five times and the list
has length 20, because `visited` is only updated at dequeue time, so
within one scan the corner diagonal to the start is enqueued (and
collected) by both of its neighbors. -/
theorem c1_counterexample :
    ((findMatches b4).count pos11_0 = 4 ∧ (findMatches b4).count pos11_0 ≠ 1)
      ∧ ((findMatches b22).count pos11_0 = 5 ∧ (findMatches b22).length = 20) := by
  have h : (findMatchesFuel 30 b4).map (fun l => l.count pos11_0) = some 4 := by
    decide
  have h22 : (findMatchesFuel 30 b22).map (fun l => (l.count pos11_0, l.length))
      = some (5, 20) := by
    decide
  refine ⟨?_, ?_⟩
  · cases hf : findMatchesFuel 30 b4 with
    | none => rw [hf] at h; exact absurd h (by simp)
    | some l =>
        rw [hf] at h
        simp only [Option.map_some', Option.some.injEq] at h
        rw [findMatchesFuel_eq hf]
        exact ⟨h, by omega⟩
  · cases hf : findMatchesFuel 30 b22 with
    | none => rw [hf] at h22; exact absurd h22 (by simp)
    | some l =>
        rw [hf] at h22
        simp only [Option.map_some', Option.some.injEq, Prod.mk.injEq] at h22
        rw [findMatchesFuel_eq hf]
        exact ⟨h22.1, h22.2⟩

/-! ## Claim C2 -/

/-- Claim C2 (amended): a resolution pass with a non-empty match list
adds exactly `L * 10 * (chainIndex + 1)` to the score and sets the chain
counter to `chainIndex + 1`, where `L` is the length of `findMatches`'
output.  `L` is not the number of matched cells: it counts every matched
cell once per member of its component, so `L` is at least `4 *` the
number of distinct matched cells. -/
theorem c2_chain_scoring (g : Grid) (n : Nat) (h : findMatches g ≠ []) :
    (animateChain g n).2.1
        = (findMatches g).length * 10 * (n + 1)
          + (animateChain (applyGravity (removeMatchedPuyos g (findMatches g)))
              (n + 1)).2.1
      ∧ (animateChain g n).2.2.head? = some (n + 1)
      ∧ 4 * (findMatches g).toFinset.card ≤ (findMatches g).length := by
  refine ⟨?_, ?_, findMatches_length_ge g⟩
  · rw [animateChain, dif_neg h]
  · rw [animateChain, dif_neg h]
    rfl

/-- Claim C2, witness: the per-pass scoring equation instantiated on the
all-red bottom row (a single six-cell group) at chain index 0. -/
theorem c2_chain_scoring_witness :
    findMatches b6 ≠ []
      ∧ ((animateChain b6 0).2.1
          = (findMatches b6).length * 10 * (0 + 1)
            + (animateChain (applyGravity (removeMatchedPuyos b6 (findMatches b6)))
                (0 + 1)).2.1
        ∧ (animateChain b6 0).2.2.head? = some (0 + 1)
        ∧ 4 * (findMatches b6).toFinset.card ≤ (findMatches b6).length) := by
  have hlen : (findMatchesFuel 30 b6).map (fun l => l.length) = some 36 := by decide
  have hne : findMatches b6 ≠ [] := by
    cases hf : findMatchesFuel 30 b6 with
    | none => rw [hf] at hlen; exact absurd hlen (by simp)
    | some l =>
        rw [hf] at hlen
        simp only [Option.map_some', Option.some.injEq] at hlen
        rw [findMatchesFuel_eq hf]
        intro hnil
        rw [hnil] at hlen
        simp at hlen
  exact ⟨hne, c2_chain_scoring b6 0 hne⟩

/-- Claim C2, counterexample to the claim as stated: one pass on the
six-cell bottom-row group at chain index 0 adds 360 points, not
`6 * 10 * 1 = 60` — the source multiplies by the duplicated match-list
length (36), not by the number of matched cells (6). -/
theorem c2_counterexample :
    (animateChain b6 0).2.1 = 360 ∧ (findMatches b6).toFinset.card = 6
      ∧ (animateChain b6 0).2.1 ≠ (findMatches b6).toFinset.card * 10 * (0 + 1) := by
  have h1 : (chainFuel 30 3 b6 0).map (fun r => r.2.1) = some 360 := by decide
  have h2 : (findMatchesFuel 30 b6).map (fun l => l.toFinset.card) = some 6 := by
    decide
  cases hc : chainFuel 30 3 b6 0 with
  | none => rw [hc] at h1; exact absurd h1 (by simp)
  | some r =>
      rw [hc] at h1
      simp only [Option.map_some', Option.some.injEq] at h1
      have he := chainFuel_eq hc
      cases hf : findMatchesFuel 30 b6 with
      | none => rw [hf] at h2; exact absurd h2 (by simp)
      | some l =>
          rw [hf] at h2
          simp only [Option.map_some', Option.some.injEq] at h2
          rw [he, findMatchesFuel_eq hf, h1, h2]
          refine ⟨rfl, rfl, by omega⟩

/-! ## Claim C3 -/

/-- Column 2 completely full (alternating two-cell runs of red and
green, so nothing matches); every other column empty.  The spawn cell
`(0, 2)` is occupied. -/
def gC3 : Grid := fun r c =>
  if c.val = 2 then
    (if (r.val / 2) % 2 = 0 then some Color.red else some Color.green)
  else none

/-- A piece resting at the bottom of column 0, about to lock. -/
def pBlueYellow : PuyoPair :=
  { color1 := some Color.blue, color2 := some Color.yellow,
    x := 0, y := 11, rotation := 0 }

def pNext1 : PuyoPair := generatePuyoPair Color.purple Color.purple

def pNext2 : PuyoPair := generatePuyoPair Color.yellow Color.blue

def pFresh : PuyoPair := generatePuyoPair Color.green Color.red

/-- About to lock at the bottom of column 0 while the spawn cell
`(0, 2)` is already occupied. -/
def sC3 : Game :=
  { grid := gC3, gameState := GState.active, score := 0,
    currentPuyo := some pBlueYellow, nextPuyos := [pNext1, pNext2],
    chainCounter := 0, isPaused := false, heldPuyo := none, canHold := false }

/-- The board after the lock writes and gravity in `placePuyo pFresh sC3`. -/
def gC3after : Grid :=
  applyGravity (updateCell (updateCell gC3 11 0 (some Color.blue)) 10 0
    (some Color.yellow))

/-- Claim C3, counterexample to the claim as stated: locking a piece
while the spawn cell `(0, 2)` is occupied still spawns the next queued
piece — the game stays `active` and a piece is put into play; no
game-over is signaled at spawn time. -/
theorem c3_counterexample :
    colorAt (placePuyo pFresh sC3).grid (⟨0, by decide⟩, ⟨2, by decide⟩)
        = some Color.red
      ∧ (placePuyo pFresh sC3).gameState = GState.active
      ∧ (placePuyo pFresh sC3).currentPuyo = some pNext1 := by
  have hfm : findMatchesFuel 30 gC3after = some [] := by decide
  have hm : findMatches gC3after = [] := findMatchesFuel_eq hfm
  have hchain : animateChain gC3after 0 = (gC3after, 0, [0]) := by
    rw [animateChain, hm]
    rfl
  have hgrid : (placePuyo pFresh sC3).grid = (animateChain gC3after 0).1 := rfl
  refine ⟨?_, rfl, rfl⟩
  rw [hgrid, hchain]
  decide

/-- Claim C3 (amended): the code checks nothing at spawn time; instead,
when the active piece sits at the spawn row (`y = 0`, rotation `Up`) and
its down-move is invalid, the attempted lock fails the bounds check on
the hidden secondary cell at row `-1` and the state transitions to
`over`, with the grid, queue, score and current piece left untouched. -/
theorem c3_blocked_spawn_locks_over (f : PuyoPair) (s : Game) (p : PuyoPair)
    (hc : s.currentPuyo = some p) (hg : s.gameState = GState.active)
    (hp : s.isPaused = false) (hy : p.y = 0) (hr : p.rotation = 0)
    (hv : isValidMove s.grid { p with y := p.y + 1 } = false) :
    movePuyo f MoveDir.down s = { s with gameState := GState.over } := by
  have hp2 : getSecondPuyoPosition p.x p.y p.rotation = (p.x, -1) := by
    rw [hy, hr]
    simp [getSecondPuyoPosition]
  simp only [movePuyo, hc, hg, hp]
  rw [if_neg (by simp)]
  simp only [hv, Bool.false_eq_true, if_false, reduceIte]
  unfold placePuyo
  rw [hc]
  simp only [hp2, hp]
  rw [if_pos (Or.inr (Or.inr (Or.inr (Or.inr (Or.inl (by norm_num))))))]

/-- A board with only the cell `(1, 2)` occupied: it blocks the spawn
piece's first down-move. -/
def gC3w : Grid := fun r c =>
  if r.val = 1 ∧ c.val = 2 then some Color.green else none

/-- The freshly spawned pair at the spawn anchor. -/
def pSpawn : PuyoPair := generatePuyoPair Color.red Color.blue

def sC3w : Game :=
  { grid := gC3w, gameState := GState.active, score := 0,
    currentPuyo := some pSpawn, nextPuyos := [pNext1],
    chainCounter := 0, isPaused := false, heldPuyo := none, canHold := true }

/-- Claim C3, witness: a spawn piece blocked by a cell just below the
spawn anchor; its rejected down-move turns the game over. -/
theorem c3_blocked_spawn_locks_over_witness :
    sC3w.currentPuyo = some pSpawn ∧ sC3w.gameState = GState.active
      ∧ sC3w.isPaused = false ∧ pSpawn.y = 0 ∧ pSpawn.rotation = 0
      ∧ isValidMove sC3w.grid { pSpawn with y := pSpawn.y + 1 } = false
      ∧ movePuyo pFresh MoveDir.down sC3w = { sC3w with gameState := GState.over } :=
  ⟨rfl, rfl, rfl, rfl, rfl, by decide,
    c3_blocked_spawn_locks_over pFresh sC3w pSpawn rfl rfl rfl rfl rfl (by decide)⟩

/-! ## Claim C4 -/

/-- Claim C4 (amended): every committed left/right move and every
committed rotation yields a piece whose two cells are in-bounds and
unoccupied (`isValidMove`); but the claimed invariant does not hold
"from its spawn": the spawn anchor (column 2, row 0, rotation `Up`)
places the secondary cell at row `-1`, out of bounds, and a hold-swap
resets a piece to that same anchor. -/
theorem c4_committed_moves_valid (f : PuyoPair) (s : Game) (p : PuyoPair)
    (rd : RotDir) (hc : s.currentPuyo = some p)
    (hg : s.gameState = GState.active) (hp : s.isPaused = false) :
    (∀ q, (movePuyo f MoveDir.left s).currentPuyo = some q → q ≠ p →
        isValidMove s.grid q = true)
      ∧ (∀ q, (movePuyo f MoveDir.right s).currentPuyo = some q → q ≠ p →
          isValidMove s.grid q = true)
      ∧ (∀ q, (rotatePuyo rd s).currentPuyo = some q → q ≠ p →
          isValidMove s.grid q = true) := by
  have hguard : ¬(s.gameState ≠ GState.active ∨ s.isPaused = true) := by
    simp [hg, hp]
  refine ⟨?_, ?_, ?_⟩
  · intro q hq hne
    unfold movePuyo at hq
    simp only [hc] at hq
    rw [if_neg hguard] at hq
    by_cases hvalid : isValidMove s.grid { p with x := p.x - 1 } = true
    · rw [if_pos hvalid] at hq
      have hq' : some ({ p with x := p.x - 1 } : PuyoPair) = some q := hq
      rw [← Option.some.inj hq']
      exact hvalid
    · rw [if_neg hvalid] at hq
      rw [if_neg (by decide : ¬(MoveDir.left = MoveDir.down))] at hq
      rw [hc] at hq
      exact absurd (Option.some.inj hq).symm hne
  · intro q hq hne
    unfold movePuyo at hq
    simp only [hc] at hq
    rw [if_neg hguard] at hq
    by_cases hvalid : isValidMove s.grid { p with x := p.x + 1 } = true
    · rw [if_pos hvalid] at hq
      have hq' : some ({ p with x := p.x + 1 } : PuyoPair) = some q := hq
      rw [← Option.some.inj hq']
      exact hvalid
    · rw [if_neg hvalid] at hq
      rw [if_neg (by decide : ¬(MoveDir.right = MoveDir.down))] at hq
      rw [hc] at hq
      exact absurd (Option.some.inj hq).symm hne
  · intro q hq hne
    unfold rotatePuyo at hq
    simp only [hc] at hq
    rw [if_neg hguard] at hq
    by_cases hvalid : isValidMove s.grid
        { p with rotation :=
            (p.rotation + (if rd = RotDir.left then -1 else 1) + 4) % 4 } = true
    · rw [if_pos hvalid] at hq
      have hq' : some ({ p with rotation :=
          (p.rotation + (if rd = RotDir.left then -1 else 1) + 4) % 4 } : PuyoPair)
          = some q := hq
      rw [← Option.some.inj hq']
      exact hvalid
    · rw [if_neg hvalid] at hq
      rw [hc] at hq
      exact absurd (Option.some.inj hq).symm hne

/-- A piece parked mid-board on the empty grid. -/
def p4 : PuyoPair :=
  { color1 := some Color.red, color2 := some Color.green, x := 2, y := 5,
    rotation := 0 }

def s4w : Game :=
  { grid := createEmptyGrid, gameState := GState.active, score := 0,
    currentPuyo := some p4, nextPuyos := [pNext1], chainCounter := 0,
    isPaused := false, heldPuyo := none, canHold := true }

/-- Claim C4, witness: a committed left move mid-board lands on a fully
valid position. -/
theorem c4_committed_moves_valid_witness :
    s4w.currentPuyo = some p4 ∧ s4w.gameState = GState.active
      ∧ s4w.isPaused = false
      ∧ (movePuyo pFresh MoveDir.left s4w).currentPuyo = some { p4 with x := p4.x - 1 }
      ∧ isValidMove s4w.grid { p4 with x := p4.x - 1 } = true :=
  ⟨rfl, rfl, rfl, by decide,
    (c4_committed_moves_valid pFresh s4w p4 RotDir.right rfl rfl rfl).1
      { p4 with x := p4.x - 1 } (by decide) (by decide)⟩

/-- Claim C4, counterexample to the claim as stated: the freshly spawned
pair itself violates the claimed invariant — on the empty board its
secondary cell sits at row `-1`, so `isValidMove` rejects the very state
every piece starts (and every hold-swap resets to). -/
theorem c4_counterexample :
    isValidMove createEmptyGrid (generatePuyoPair Color.red Color.green) = false
      ∧ getSecondPuyoPosition (generatePuyoPair Color.red Color.green).x
          (generatePuyoPair Color.red Color.green).y
          (generatePuyoPair Color.red Color.green).rotation = (2, -1) := by
  decide

/-! ## Claim C5 -/

/-- Claim C5 (amended): an invalid left or right move and an invalid
rotation are rejected with no change to any state, while an invalid down
move triggers the lock routine `placePuyo`.  The original claim's
further assertion that rejected moves "report failure" is false of the
program: the source functions return no value on any path, so rejection
is observable only as the unchanged state (see the counterexample). -/
theorem c5_invalid_moves (f : PuyoPair) (s : Game) (p : PuyoPair) (rd : RotDir)
    (hc : s.currentPuyo = some p) (hg : s.gameState = GState.active)
    (hp : s.isPaused = false) :
    (isValidMove s.grid { p with x := p.x - 1 } = false →
        movePuyo f MoveDir.left s = s)
      ∧ (isValidMove s.grid { p with x := p.x + 1 } = false →
          movePuyo f MoveDir.right s = s)
      ∧ (isValidMove s.grid
            { p with rotation :=
                (p.rotation + (if rd = RotDir.left then -1 else 1) + 4) % 4 } = false →
          rotatePuyo rd s = s)
      ∧ (isValidMove s.grid { p with y := p.y + 1 } = false →
          movePuyo f MoveDir.down s = placePuyo f s) := by
  have hguard : ¬(s.gameState ≠ GState.active ∨ s.isPaused = true) := by
    simp [hg, hp]
  refine ⟨?_, ?_, ?_, ?_⟩
  · intro hv
    unfold movePuyo
    simp only [hc]
    rw [if_neg hguard, hv]
    simp only [Bool.false_eq_true, if_false]
    rw [if_neg (by decide : ¬(MoveDir.left = MoveDir.down))]
  · intro hv
    unfold movePuyo
    simp only [hc]
    rw [if_neg hguard, hv]
    simp only [Bool.false_eq_true, if_false]
    rw [if_neg (by decide : ¬(MoveDir.right = MoveDir.down))]
  · intro hv
    unfold rotatePuyo
    simp only [hc]
    rw [if_neg hguard, hv]
    simp only [Bool.false_eq_true, if_false]
  · intro hv
    unfold movePuyo
    simp only [hc]
    rw [if_neg hguard, hv]
    simp only [Bool.false_eq_true, if_false, if_true]

/-- A board with one green cell at `(11, 1)`, walling in the piece. -/
def g5w : Grid := fun r c =>
  if r.val = 11 ∧ c.val = 1 then some Color.green else none

/-- A piece in the bottom-left corner: left, right, down and both
rotations are all invalid. -/
def p5 : PuyoPair :=
  { color1 := some Color.red, color2 := some Color.blue, x := 0, y := 11,
    rotation := 0 }

def s5w : Game :=
  { grid := g5w, gameState := GState.active, score := 0,
    currentPuyo := some p5, nextPuyos := [pNext1], chainCounter := 0,
    isPaused := false, heldPuyo := none, canHold := true }

/-- Claim C5, witness: in the bottom-left pocket every tested move is
invalid; left/right/rotation leave the state unchanged and down hands
off to `placePuyo`. -/
theorem c5_invalid_moves_witness :
    s5w.currentPuyo = some p5 ∧ s5w.gameState = GState.active
      ∧ s5w.isPaused = false
      ∧ isValidMove s5w.grid { p5 with x := p5.x - 1 } = false
      ∧ isValidMove s5w.grid { p5 with x := p5.x + 1 } = false
      ∧ isValidMove s5w.grid
          { p5 with rotation :=
              (p5.rotation + (if RotDir.right = RotDir.left then -1 else 1) + 4) % 4 }
          = false
      ∧ isValidMove s5w.grid { p5 with y := p5.y + 1 } = false
      ∧ movePuyo pFresh MoveDir.left s5w = s5w
      ∧ movePuyo pFresh MoveDir.right s5w = s5w
      ∧ rotatePuyo RotDir.right s5w = s5w
      ∧ movePuyo pFresh MoveDir.down s5w = placePuyo pFresh s5w :=
  ⟨rfl, rfl, rfl, by decide, by decide, by decide, by decide,
    (c5_invalid_moves pFresh s5w p5 RotDir.right rfl rfl rfl).1 (by decide),
    (c5_invalid_moves pFresh s5w p5 RotDir.right rfl rfl rfl).2.1 (by decide),
    (c5_invalid_moves pFresh s5w p5 RotDir.right rfl rfl rfl).2.2.1 (by decide),
    (c5_invalid_moves pFresh s5w p5 RotDir.right rfl rfl rfl).2.2.2 (by decide)⟩

/-- The caller-visible result of a `movePuyo` call: the new state paired
with the function's return value.  The source function (lines 191-204)
ends without a `return <value>` statement on every path — the guard's
bare `return` and the implicit fall-through both yield `undefined` — so
the returned value is uniformly `none`: no success or failure flag is
ever produced. -/
def movePuyoReturn (f : PuyoPair) (d : MoveDir) (s : Game) : Game × Option Bool :=
  (movePuyo f d s, none)

/-- The caller-visible result of a `rotatePuyo` call (source lines
206-215): like `movePuyo`, every path returns `undefined`. -/
def rotatePuyoReturn (d : RotDir) (s : Game) : Game × Option Bool :=
  (rotatePuyo d s, none)

/-- Claim C5, counterexample to the claim as stated: rejected moves and
rotations report no failure.  On the concrete walled-in state the left
move and the right rotation are invalid, yet each call's return value is
`none` (`undefined` in the source) — in particular never the `false`
report the spec promises — so the caller cannot tell a rejected call
from an accepted one by the returned value. -/
theorem c5_counterexample :
    isValidMove s5w.grid { p5 with x := p5.x - 1 } = false
      ∧ isValidMove s5w.grid
          { p5 with rotation :=
              (p5.rotation + (if RotDir.right = RotDir.left then -1 else 1) + 4) % 4 }
          = false
      ∧ (movePuyoReturn pFresh MoveDir.left s5w).2 = none
      ∧ (rotatePuyoReturn RotDir.right s5w).2 = none
      ∧ (movePuyoReturn pFresh MoveDir.left s5w).2 ≠ some false
      ∧ (rotatePuyoReturn RotDir.right s5w).2 ≠ some false := by
  exact ⟨by decide, by decide, rfl, rfl, by decide, by decide⟩

/-! ## Claim C6 -/

lemma holdPuyo_stuck (f : PuyoPair) (s : Game)
    (h : s.currentPuyo = none
      ∨ (s.canHold = false ∨ s.gameState ≠ GState.active ∨ s.isPaused = true)) :
    holdPuyo f s = s := by
  cases hcur : s.currentPuyo with
  | none =>
      unfold holdPuyo
      simp only [hcur]
  | some cur =>
      rcases h with h | h
      · rw [hcur] at h
        exact absurd h (by simp)
      · unfold holdPuyo
        simp only [hcur]
        rw [if_pos h]

lemma holdPuyo_swap (f : PuyoPair) (s : Game) (p h0 : PuyoPair)
    (hc : s.currentPuyo = some p) (hch : s.canHold = true)
    (hg : s.gameState = GState.active) (hp : s.isPaused = false)
    (hheld : s.heldPuyo = some h0) :
    holdPuyo f s = { s with
      currentPuyo := some { h0 with x := 2, y := 0, rotation := 0 },
      heldPuyo := some p, canHold := false } := by
  unfold holdPuyo
  simp only [hc]
  rw [if_neg (show ¬(s.canHold = false ∨ s.gameState ≠ GState.active
    ∨ s.isPaused = true) from by simp [hch, hg, hp])]
  simp only [hheld]

lemma holdPuyo_store (f : PuyoPair) (s : Game) (p : PuyoPair)
    (hc : s.currentPuyo = some p) (hch : s.canHold = true)
    (hg : s.gameState = GState.active) (hp : s.isPaused = false)
    (hheld : s.heldPuyo = none) :
    holdPuyo f s = { s with
      heldPuyo := some p,
      currentPuyo := s.nextPuyos.head?,
      nextPuyos := s.nextPuyos.tail ++ [f],
      canHold := false } := by
  unfold holdPuyo
  simp only [hc]
  rw [if_neg (show ¬(s.canHold = false ∨ s.gameState ≠ GState.active
    ∨ s.isPaused = true) from by simp [hch, hg, hp])]
  simp only [hheld]

/-- Claim C6: hold is allowed at most once per lock cycle — a second
hold with no intervening lock changes nothing; a hold with a held piece
swaps it back (reset to the spawn anchor) without touching the queue; a
hold with an empty hold slot stores the piece and advances the queue. -/
theorem c6_hold (f1 f2 f : PuyoPair) (s : Game) (p h0 : PuyoPair) :
    (holdPuyo f2 (holdPuyo f1 s) = holdPuyo f1 s)
      ∧ (s.currentPuyo = some p → s.canHold = true → s.gameState = GState.active →
          s.isPaused = false →
          ((s.heldPuyo = some h0 →
              holdPuyo f s = { s with
                currentPuyo := some { h0 with x := 2, y := 0, rotation := 0 },
                heldPuyo := some p, canHold := false })
            ∧ (s.heldPuyo = none →
                holdPuyo f s = { s with
                  heldPuyo := some p,
                  currentPuyo := s.nextPuyos.head?,
                  nextPuyos := s.nextPuyos.tail ++ [f],
                  canHold := false }))) := by
  constructor
  · cases hcur : s.currentPuyo with
    | none =>
        rw [holdPuyo_stuck f1 s (Or.inl hcur)]
        exact holdPuyo_stuck f2 s (Or.inl hcur)
    | some cur =>
        by_cases hguard : s.canHold = false ∨ s.gameState ≠ GState.active
            ∨ s.isPaused = true
        · rw [holdPuyo_stuck f1 s (Or.inr hguard)]
          exact holdPuyo_stuck f2 s (Or.inr hguard)
        · push_neg at hguard
          obtain ⟨hch, hg, hp⟩ := hguard
          have hch' : s.canHold = true := by
            cases hchv : s.canHold with
            | false => exact absurd hchv hch
            | true => rfl
          have hp' : s.isPaused = false := by
            cases hpp : s.isPaused with
            | false => rfl
            | true => exact absurd hpp hp
          cases hheld : s.heldPuyo with
          | some held =>
              rw [holdPuyo_swap f1 s cur held hcur hch' hg hp' hheld]
              exact holdPuyo_stuck f2 _ (Or.inr (Or.inl rfl))
          | none =>
              rw [holdPuyo_store f1 s cur hcur hch' hg hp' hheld]
              exact holdPuyo_stuck f2 _ (Or.inr (Or.inl rfl))
  · intro hc hch hg hp
    exact ⟨fun hheld => holdPuyo_swap f s p h0 hc hch hg hp hheld,
      fun hheld => holdPuyo_store f s p hc hch hg hp hheld⟩

/-- A mid-game state with a held piece, ready for a legal hold-swap. -/
def s6w : Game :=
  { grid := createEmptyGrid, gameState := GState.active, score := 0,
    currentPuyo := some p4, nextPuyos := [pNext1, pNext2], chainCounter := 0,
    isPaused := false, heldPuyo := some pBlueYellow, canHold := true }

/-- Claim C6, witness: a hold-swap on a concrete state, followed by a
second hold that changes nothing. -/
theorem c6_hold_witness :
    s6w.currentPuyo = some p4 ∧ s6w.canHold = true
      ∧ s6w.gameState = GState.active ∧ s6w.isPaused = false
      ∧ s6w.heldPuyo = some pBlueYellow
      ∧ holdPuyo pFresh s6w = { s6w with
          currentPuyo := some { pBlueYellow with x := 2, y := 0, rotation := 0 },
          heldPuyo := some p4, canHold := false }
      ∧ holdPuyo pNext2 (holdPuyo pFresh s6w) = holdPuyo pFresh s6w :=
  ⟨rfl, rfl, rfl, rfl, rfl,
    ((c6_hold pFresh pNext2 pFresh s6w p4 pBlueYellow).2 rfl rfl rfl rfl).1 rfl,
    (c6_hold pFresh pNext2 pFresh s6w p4 pBlueYellow).1⟩

/-! ## Claim C7 -/

/-- Claim C7: gravity compacts each column independently — the
post-gravity column is the column's non-empty cells, in their original
top-to-bottom order, packed at the bottom below a pad of `none`; the
per-column color sequence and the total non-empty count are unchanged. -/
theorem c7_gravity_compaction (g : Grid) (x : Fin GRID_COLS) :
    colList (applyGravity g) x
        = List.replicate (GRID_ROWS - ((colList g x).filterMap id).length) none
          ++ ((colList g x).filterMap id).map some
      ∧ (colList (applyGravity g) x).filterMap id = (colList g x).filterMap id
      ∧ nonEmptyCount (applyGravity g) = nonEmptyCount g := by
  refine ⟨?_, ?_, nonEmptyCount_applyGravity g⟩
  · rw [colList_applyGravity, applyGravityCol_eq,
      show (colList g x).length = GRID_ROWS from by simp [colList, GRID_ROWS]]
  · rw [colList_applyGravity, filterMap_applyGravityCol]

/-! ## Claim C8 -/

/-- Claim C8: gravity is idempotent — applying it twice yields the same
board as applying it once. -/
theorem c8_gravity_idempotent (g : Grid) :
    applyGravity (applyGravity g) = applyGravity g := by
  funext r x
  show (applyGravityCol (colList (applyGravity g) x)).getD r none
      = (applyGravityCol (colList g x)).getD r none
  rw [colList_applyGravity, applyGravityCol_idem]

/-! ## Claim C9 -/

lemma rotStep_right (s : Game) (p : PuyoPair) (hc : s.currentPuyo = some p)
    (hg : s.gameState = GState.active) (hp : s.isPaused = false) :
    rotatePuyo RotDir.right s = s
      ∨ rotatePuyo RotDir.right s
          = { s with currentPuyo := some { p with rotation := (p.rotation + 1 + 4) % 4 } } := by
  unfold rotatePuyo
  simp only [hc]
  rw [if_neg (show ¬(s.gameState ≠ GState.active ∨ s.isPaused = true) from by
    simp [hg, hp])]
  rw [if_neg (by decide : ¬(RotDir.right = RotDir.left))]
  by_cases hv : isValidMove s.grid { p with rotation := (p.rotation + 1 + 4) % 4 } = true
  · rw [if_pos hv]
    exact Or.inr rfl
  · rw [if_neg hv]
    exact Or.inl rfl

lemma rotStep_left (s : Game) (p : PuyoPair) (hc : s.currentPuyo = some p)
    (hg : s.gameState = GState.active) (hp : s.isPaused = false) :
    rotatePuyo RotDir.left s = s
      ∨ rotatePuyo RotDir.left s
          = { s with currentPuyo := some { p with rotation := (p.rotation + -1 + 4) % 4 } } := by
  unfold rotatePuyo
  simp only [hc]
  rw [if_neg (show ¬(s.gameState ≠ GState.active ∨ s.isPaused = true) from by
    simp [hg, hp])]
  simp only [if_true]
  by_cases hv : isValidMove s.grid { p with rotation := (p.rotation + -1 + 4) % 4 } = true
  · rw [if_pos hv]
    exact Or.inr rfl
  · rw [if_neg hv]
    exact Or.inl rfl

lemma rotatePuyo_fields (d : RotDir) (s : Game) :
    (rotatePuyo d s).grid = s.grid ∧ (rotatePuyo d s).gameState = s.gameState
      ∧ (rotatePuyo d s).score = s.score
      ∧ (rotatePuyo d s).nextPuyos = s.nextPuyos
      ∧ (rotatePuyo d s).chainCounter = s.chainCounter
      ∧ (rotatePuyo d s).isPaused = s.isPaused
      ∧ (rotatePuyo d s).heldPuyo = s.heldPuyo
      ∧ (rotatePuyo d s).canHold = s.canHold := by
  unfold rotatePuyo
  cases hcur : s.currentPuyo with
  | none => exact ⟨rfl, rfl, rfl, rfl, rfl, rfl, rfl, rfl⟩
  | some cur =>
      simp only [hcur]
      repeat' split
      all_goals exact ⟨rfl, rfl, rfl, rfl, rfl, rfl, rfl, rfl⟩

/-- Claim C9 (amended): each committed rotation cycles the orientation
by plus or minus one modulo 4 (`(rotation ± 1 + 4) % 4`); four Right
rotations that all commit return the state to the original, as does a
committed Left followed by a committed Right.  But a rotation refused by
validation leaves the orientation unchanged, so the claim's
unconditional form fails, e.g. against the left wall (see the
counterexample). -/
theorem c9_rotation (s : Game) (p : PuyoPair)
    (hc : s.currentPuyo = some p) (hg : s.gameState = GState.active)
    (hp : s.isPaused = false) (hr0 : 0 ≤ p.rotation) (hr4 : p.rotation < 4) :
    (rotatePuyo RotDir.right s = s
        ∨ rotatePuyo RotDir.right s
            = { s with currentPuyo := some { p with rotation := (p.rotation + 1 + 4) % 4 } })
      ∧ (rotatePuyo RotDir.right s ≠ s →
          rotatePuyo RotDir.right (rotatePuyo RotDir.right s)
              ≠ rotatePuyo RotDir.right s →
          rotatePuyo RotDir.right (rotatePuyo RotDir.right (rotatePuyo RotDir.right s))
              ≠ rotatePuyo RotDir.right (rotatePuyo RotDir.right s) →
          rotatePuyo RotDir.right (rotatePuyo RotDir.right (rotatePuyo RotDir.right
              (rotatePuyo RotDir.right s)))
              ≠ rotatePuyo RotDir.right (rotatePuyo RotDir.right
                  (rotatePuyo RotDir.right s)) →
          rotatePuyo RotDir.right (rotatePuyo RotDir.right (rotatePuyo RotDir.right
              (rotatePuyo RotDir.right s))) = s)
      ∧ (rotatePuyo RotDir.left s ≠ s →
          rotatePuyo RotDir.right (rotatePuyo RotDir.left s)
              ≠ rotatePuyo RotDir.left s →
          rotatePuyo RotDir.right (rotatePuyo RotDir.left s) = s) := by
  have hstepR : ∀ (t : Game) (q : PuyoPair), t.currentPuyo = some q →
      t.gameState = GState.active → t.isPaused = false →
      rotatePuyo RotDir.right t ≠ t →
      (rotatePuyo RotDir.right t).currentPuyo
        = some { q with rotation := (q.rotation + 1 + 4) % 4 } := by
    intro t q hcq hgq hpq hne
    rcases rotStep_right t q hcq hgq hpq with he | he
    · exact absurd he hne
    · rw [he]
  have hstepL : ∀ (t : Game) (q : PuyoPair), t.currentPuyo = some q →
      t.gameState = GState.active → t.isPaused = false →
      rotatePuyo RotDir.left t ≠ t →
      (rotatePuyo RotDir.left t).currentPuyo
        = some { q with rotation := (q.rotation + -1 + 4) % 4 } := by
    intro t q hcq hgq hpq hne
    rcases rotStep_left t q hcq hgq hpq with he | he
    · exact absurd he hne
    · rw [he]
  obtain ⟨pc1, pc2, px, py, pr⟩ := p
  have hpr0 : 0 ≤ pr := hr0
  have hpr4 : pr < 4 := hr4
  refine ⟨rotStep_right s _ hc hg hp, ?_, ?_⟩
  · intro h1 h2 h3 h4
    have hg1 : (rotatePuyo RotDir.right s).gameState = GState.active := by
      rw [(rotatePuyo_fields _ _).2.1, hg]
    have hp1 : (rotatePuyo RotDir.right s).isPaused = false := by
      rw [(rotatePuyo_fields _ _).2.2.2.2.2.1, hp]
    have hg2 : (rotatePuyo RotDir.right (rotatePuyo RotDir.right s)).gameState
        = GState.active := by
      rw [(rotatePuyo_fields _ _).2.1, hg1]
    have hp2 : (rotatePuyo RotDir.right (rotatePuyo RotDir.right s)).isPaused
        = false := by
      rw [(rotatePuyo_fields _ _).2.2.2.2.2.1, hp1]
    have hg3 : (rotatePuyo RotDir.right (rotatePuyo RotDir.right
        (rotatePuyo RotDir.right s))).gameState = GState.active := by
      rw [(rotatePuyo_fields _ _).2.1, hg2]
    have hp3 : (rotatePuyo RotDir.right (rotatePuyo RotDir.right
        (rotatePuyo RotDir.right s))).isPaused = false := by
      rw [(rotatePuyo_fields _ _).2.2.2.2.2.1, hp2]
    have e1 : (rotatePuyo RotDir.right s).currentPuyo
        = some ⟨pc1, pc2, px, py, (pr + 1 + 4) % 4⟩ :=
      hstepR s _ hc hg hp h1
    have e2 : (rotatePuyo RotDir.right (rotatePuyo RotDir.right s)).currentPuyo
        = some ⟨pc1, pc2, px, py, ((pr + 1 + 4) % 4 + 1 + 4) % 4⟩ :=
      hstepR _ _ e1 hg1 hp1 h2
    have e3 : (rotatePuyo RotDir.right (rotatePuyo RotDir.right
          (rotatePuyo RotDir.right s))).currentPuyo
        = some ⟨pc1, pc2, px, py, (((pr + 1 + 4) % 4 + 1 + 4) % 4 + 1 + 4) % 4⟩ :=
      hstepR _ _ e2 hg2 hp2 h3
    have e4 : (rotatePuyo RotDir.right (rotatePuyo RotDir.right (rotatePuyo RotDir.right
          (rotatePuyo RotDir.right s)))).currentPuyo
        = some ⟨pc1, pc2, px, py,
            ((((pr + 1 + 4) % 4 + 1 + 4) % 4 + 1 + 4) % 4 + 1 + 4) % 4⟩ :=
      hstepR _ _ e3 hg3 hp3 h4
    have hrot : ((((pr + 1 + 4) % 4 + 1 + 4) % 4 + 1 + 4) % 4 + 1 + 4) % 4 = pr := by
      omega
    rw [hrot] at e4
    apply Game.ext
    · rw [(rotatePuyo_fields _ _).1, (rotatePuyo_fields _ _).1,
        (rotatePuyo_fields _ _).1, (rotatePuyo_fields _ _).1]
    · rw [(rotatePuyo_fields _ _).2.1, hg3, hg]
    · rw [(rotatePuyo_fields _ _).2.2.1, (rotatePuyo_fields _ _).2.2.1,
        (rotatePuyo_fields _ _).2.2.1, (rotatePuyo_fields _ _).2.2.1]
    · rw [e4, hc]
    · rw [(rotatePuyo_fields _ _).2.2.2.1, (rotatePuyo_fields _ _).2.2.2.1,
        (rotatePuyo_fields _ _).2.2.2.1, (rotatePuyo_fields _ _).2.2.2.1]
    · rw [(rotatePuyo_fields _ _).2.2.2.2.1, (rotatePuyo_fields _ _).2.2.2.2.1,
        (rotatePuyo_fields _ _).2.2.2.2.1, (rotatePuyo_fields _ _).2.2.2.2.1]
    · rw [(rotatePuyo_fields _ _).2.2.2.2.2.1, hp3, hp]
    · rw [(rotatePuyo_fields _ _).2.2.2.2.2.2.1, (rotatePuyo_fields _ _).2.2.2.2.2.2.1,
        (rotatePuyo_fields _ _).2.2.2.2.2.2.1, (rotatePuyo_fields _ _).2.2.2.2.2.2.1]
    · rw [(rotatePuyo_fields _ _).2.2.2.2.2.2.2, (rotatePuyo_fields _ _).2.2.2.2.2.2.2,
        (rotatePuyo_fields _ _).2.2.2.2.2.2.2, (rotatePuyo_fields _ _).2.2.2.2.2.2.2]
  · intro h1 h2
    have hg1 : (rotatePuyo RotDir.left s).gameState = GState.active := by
      rw [(rotatePuyo_fields _ _).2.1, hg]
    have hp1 : (rotatePuyo RotDir.left s).isPaused = false := by
      rw [(rotatePuyo_fields _ _).2.2.2.2.2.1, hp]
    have e1 : (rotatePuyo RotDir.left s).currentPuyo
        = some ⟨pc1, pc2, px, py, (pr + -1 + 4) % 4⟩ :=
      hstepL s _ hc hg hp h1
    have e2 : (rotatePuyo RotDir.right (rotatePuyo RotDir.left s)).currentPuyo
        = some ⟨pc1, pc2, px, py, ((pr + -1 + 4) % 4 + 1 + 4) % 4⟩ :=
      hstepR _ _ e1 hg1 hp1 h2
    have hrot : ((pr + -1 + 4) % 4 + 1 + 4) % 4 = pr := by omega
    rw [hrot] at e2
    apply Game.ext
    · rw [(rotatePuyo_fields _ _).1, (rotatePuyo_fields _ _).1]
    · rw [(rotatePuyo_fields _ _).2.1, hg1, hg]
    · rw [(rotatePuyo_fields _ _).2.2.1, (rotatePuyo_fields _ _).2.2.1]
    · rw [e2, hc]
    · rw [(rotatePuyo_fields _ _).2.2.2.1, (rotatePuyo_fields _ _).2.2.2.1]
    · rw [(rotatePuyo_fields _ _).2.2.2.2.1, (rotatePuyo_fields _ _).2.2.2.2.1]
    · rw [(rotatePuyo_fields _ _).2.2.2.2.2.1, hp1, hp]
    · rw [(rotatePuyo_fields _ _).2.2.2.2.2.2.1, (rotatePuyo_fields _ _).2.2.2.2.2.2.1]
    · rw [(rotatePuyo_fields _ _).2.2.2.2.2.2.2, (rotatePuyo_fields _ _).2.2.2.2.2.2.2]

/-- A piece against the left wall: rotating toward the wall is refused. -/
def p9 : PuyoPair :=
  { color1 := some Color.red, color2 := some Color.green, x := 0, y := 5,
    rotation := 0 }

def s9 : Game :=
  { grid := createEmptyGrid, gameState := GState.active, score := 0,
    currentPuyo := some p9, nextPuyos := [pNext1], chainCounter := 0,
    isPaused := false, heldPuyo := none, canHold := true }

/-- Claim C9, counterexample to the claim as stated: at the left wall,
rotating Right four times does not return the piece to its original
orientation — the third and fourth rotations are refused (the secondary
cell would leave the board), so the piece ends at rotation 2, not 0. -/
theorem c9_counterexample :
    (rotatePuyo RotDir.right (rotatePuyo RotDir.right (rotatePuyo RotDir.right
        (rotatePuyo RotDir.right s9)))).currentPuyo
      = some { p9 with rotation := 2 }
    ∧ ({ p9 with rotation := 2 } : PuyoPair) ≠ p9 := by
  decide

/-- A piece in the open middle of the empty board: every rotation
commits. -/
def s9w : Game :=
  { grid := createEmptyGrid, gameState := GState.active, score := 0,
    currentPuyo := some p4, nextPuyos := [pNext1], chainCounter := 0,
    isPaused := false, heldPuyo := none, canHold := true }

/-- Claim C9, witness: mid-board, all four Right rotations commit and
the piece returns to its original state; likewise Left then Right. -/
theorem c9_rotation_witness :
    rotatePuyo RotDir.right (rotatePuyo RotDir.right (rotatePuyo RotDir.right
        (rotatePuyo RotDir.right s9w))) = s9w
      ∧ rotatePuyo RotDir.right (rotatePuyo RotDir.left s9w) = s9w := by
  have hne : ∀ t u : Game, t.currentPuyo ≠ u.currentPuyo → t ≠ u :=
    fun t u hcu ht => hcu (congrArg Game.currentPuyo ht)
  refine ⟨(c9_rotation s9w p4 rfl rfl rfl (by decide) (by decide)).2.1
      (hne _ _ (by decide)) (hne _ _ (by decide)) (hne _ _ (by decide))
      (hne _ _ (by decide)),
    (c9_rotation s9w p4 rfl rfl rfl (by decide) (by decide)).2.2
      (hne _ _ (by decide)) (hne _ _ (by decide))⟩

/-! ## Claim C10 -/

/-- Claim C10: `removeMatchedPuyos` clears exactly the listed positions
and leaves every other cell unchanged; in particular a list with
duplicate occurrences (as `findMatches` produces) clears the same cells
as its deduplication. -/
theorem c10_remove_matched (g : Grid) (ms : List Pos) :
    (∀ r c, removeMatchedPuyos g ms r c = if (r, c) ∈ ms then none else g r c)
      ∧ removeMatchedPuyos g ms = removeMatchedPuyos g ms.dedup := by
  refine ⟨fun r c => removeMatchedPuyos_apply g ms r c, ?_⟩
  funext r c
  rw [removeMatchedPuyos_apply, removeMatchedPuyos_apply]
  simp [List.mem_dedup]

end Puyo
